import Mathlib

/-!
Verification development for the site crawler of this repository.

The crawler (functions.py) is built from three pure functions,
normalize_url, get_base_domain and simplify_external_links, plus the
recursive crawler crawl_external_links.  The pure string processing is
delegated to CPython's urllib.parse (urlparse, urlunparse, urljoin), so
this file first gives a shallow embedding of the relevant part of
urllib.parse (CPython 3.11), then of the repository functions themselves.

Strings are modelled as lists of characters (type Str below), Python sets
as insertion-ordered duplicate-free lists, and the HTTP network as a
function from URL to an optional response.  Python functions that can
raise are modelled with Option, a raised exception being none.

Modelling notes for urllib.parse (faithful to CPython 3.11 except where
stated):
- str.lower is modelled by Char.toLower, which agrees with Python on
  ASCII; exotic Unicode case mappings are out of scope.
- urlsplit's removal of tab, CR and LF characters and its stripping of
  leading C0-control/space characters are omitted: the development only
  evaluates URLs free of such characters, and no claim depends on them.
- The netloc validation keeps the bracket-mismatch check (a mismatched
  square bracket raises ValueError, modelled as none); the extra
  _check_bracketed_host and _checknetloc validations of CPython 3.11,
  which only affect bracketed IP-literal hosts and non-ASCII netlocs,
  are omitted, as no claim exercises them.
-/

/-- Python strings, modelled as lists of characters. -/
abbrev Str := List Char

/-- Conversion from Lean string literals to the Str model. -/
def toStr (s : String) : Str := s.data

/-- Python str.lower, character by character (ASCII case mapping). -/
def lowerStr (s : Str) : Str := s.map Char.toLower

/-- Splits a string at the first occurrence of a character: some (l, r)
with s = l ++ c :: r and c not in l, or none when c does not occur. -/
def splitAtFirst (c : Char) : Str → Option (Str × Str)
  | [] => none
  | a :: rest =>
    if a = c then some ([], rest)
    else
      match splitAtFirst c rest with
      | some (l, r) => some (a :: l, r)
      | none => none

/-- Splits a string at the last occurrence of a character: some (l, r)
with s = l ++ c :: r and c not in r, or none when c does not occur. -/
def splitAtLast (c : Char) (s : Str) : Option (Str × Str) :=
  match splitAtFirst c s.reverse with
  | some (rRev, lRev) => some (lRev.reverse, rRev.reverse)
  | none => none

/-- Python str.split(c): splits on every occurrence of c, keeping empty
pieces; the empty string yields one empty piece. -/
def pySplit (c : Char) : Str → List Str
  | [] => [[]]
  | a :: rest =>
    if a = c then [] :: pySplit c rest
    else
      match pySplit c rest with
      | [] => [[a]]
      | l :: ls => (a :: l) :: ls

/-- Joins string pieces with a separator character (Python sep.join). -/
def joinSep (sep : Char) : List Str → Str
  | [] => []
  | [s] => s
  | s :: t :: rest => s ++ sep :: joinSep sep (t :: rest)

/-- Characters that terminate the netloc part of a URL (urllib.parse
_splitnetloc looks for the earliest of '/', '?' and '#'). -/
def isDelimChar (c : Char) : Bool := c = '/' || c = '?' || c = '#'

/-- Models _splitnetloc: takes the longest delimiter-free front part. -/
def takeUntilDelims : Str → Str × Str
  | [] => ([], [])
  | a :: rest =>
    if isDelimChar a then ([], a :: rest)
    else
      let p := takeUntilDelims rest
      (a :: p.1, p.2)

/-- Characters allowed in a URL scheme (urllib.parse scheme_chars). -/
def isSchemeChar (c : Char) : Bool :=
  ('a' ≤ c && c ≤ 'z') || ('A' ≤ c && c ≤ 'Z') ||
  ('0' ≤ c && c ≤ '9') || c = '+' || c = '-' || c = '.'

/-- ASCII letter test (Python c.isascii() and c.isalpha()). -/
def isAsciiAlphaChar (c : Char) : Bool :=
  ('a' ≤ c && c ≤ 'z') || ('A' ≤ c && c ≤ 'Z')

/-- Models urlsplit's scheme detection (CPython 3.11): the text before
the first colon is a scheme when it is nonempty, starts with an ASCII
letter and consists of scheme characters only; the scheme is
lower-cased by the split itself.  Returns (scheme, remainder), with
scheme empty and the URL unchanged when no scheme is recognised. -/
def splitScheme (url : Str) : Str × Str :=
  match splitAtFirst ':' url with
  | none => ([], url)
  | some (before, after) =>
    match before with
    | [] => ([], url)
    | b :: bs =>
      if isAsciiAlphaChar b && (b :: bs).all isSchemeChar then
        (lowerStr (b :: bs), after)
      else ([], url)

/-- Mismatched square brackets in a netloc (urlsplit raises ValueError). -/
def bracketBad (nl : Str) : Bool :=
  (nl.contains '[' && !(nl.contains ']')) ||
  (nl.contains ']' && !(nl.contains '['))

/-- Result of urlsplit: scheme, netloc, path, query, fragment. -/
structure SplitResult where
  scheme : Str
  netloc : Str
  path : Str
  query : Str
  fragment : Str
deriving DecidableEq

/-- Result of urlparse: urlsplit's fields plus path parameters. -/
structure ParseResult where
  scheme : Str
  netloc : Str
  path : Str
  params : Str
  query : Str
  fragment : Str
deriving DecidableEq

/-- The splitting part of urlsplit (CPython 3.11), without the netloc
validation: scheme, then netloc after a leading double slash, then
fragment at the first '#', then query at the first '?'. -/
def urlsplitCore (dflt : Str) (url : Str) : SplitResult :=
  let sr := splitScheme url
  let scheme := if sr.1 = [] then dflt else sr.1
  let nlSplit :=
    if sr.2.take 2 = ['/', '/'] then takeUntilDelims (sr.2.drop 2)
    else ([], sr.2)
  let fr :=
    match splitAtFirst '#' nlSplit.2 with
    | some p => p
    | none => (nlSplit.2, [])
  let qr :=
    match splitAtFirst '?' fr.1 with
    | some p => p
    | none => (fr.1, [])
  ⟨scheme, nlSplit.1, qr.1, qr.2, fr.2⟩

/-- Models urllib.parse.urlsplit with a default scheme argument.
none models the ValueError raised on a bracket-mismatched netloc. -/
def pyUrlsplitD (dflt : Str) (url : Str) : Option SplitResult :=
  if bracketBad (urlsplitCore dflt url).netloc then none
  else some (urlsplitCore dflt url)

/-- urlsplit with the default empty scheme. -/
def pyUrlsplit : Str → Option SplitResult := pyUrlsplitD []

/-- Schemes for which urlparse separates path parameters. -/
def uses_params : List Str :=
  [toStr (r""), toStr (r"ftp"), toStr (r"hdl"), toStr (r"prospero"),
   toStr (r"http"), toStr (r"imap"), toStr (r"https"), toStr (r"shttp"),
   toStr (r"rtsp"), toStr (r"rtsps"), toStr (r"rtspu"), toStr (r"sip"),
   toStr (r"sips"), toStr (r"mms"), toStr (r"sftp"), toStr (r"tel")]

/-- Schemes that use a network location (urllib.parse uses_netloc). -/
def uses_netloc : List Str :=
  [toStr (r""), toStr (r"ftp"), toStr (r"http"), toStr (r"gopher"),
   toStr (r"nntp"), toStr (r"telnet"), toStr (r"imap"), toStr (r"wais"),
   toStr (r"file"), toStr (r"mms"), toStr (r"https"), toStr (r"shttp"),
   toStr (r"snews"), toStr (r"prospero"), toStr (r"rtsp"), toStr (r"rtsps"),
   toStr (r"rtspu"), toStr (r"rsync"), toStr (r"svn"), toStr (r"svn+ssh"),
   toStr (r"sftp"), toStr (r"nfs"), toStr (r"git"), toStr (r"git+ssh"),
   toStr (r"ws"), toStr (r"wss")]

/-- Schemes that allow relative resolution (urllib.parse uses_relative). -/
def uses_relative : List Str :=
  [toStr (r""), toStr (r"ftp"), toStr (r"http"), toStr (r"gopher"),
   toStr (r"nntp"), toStr (r"imap"), toStr (r"wais"), toStr (r"file"),
   toStr (r"https"), toStr (r"shttp"), toStr (r"mms"), toStr (r"prospero"),
   toStr (r"rtsp"), toStr (r"rtsps"), toStr (r"rtspu"), toStr (r"sftp"),
   toStr (r"svn"), toStr (r"svn+ssh"), toStr (r"ws"), toStr (r"wss")]

/-- Models urllib.parse._splitparams.  The crawler only reaches it when
the path contains a ';' (guarded in urlparse), so the fall-through none
branches return the input unsplit. -/
def pySplitparams (url : Str) : Str × Str :=
  if '/' ∈ url then
    match splitAtLast '/' url with
    | some (pre, post) =>
      (match splitAtFirst ';' post with
       | some (p1, p2) => (pre ++ '/' :: p1, p2)
       | none => (url, []))
    | none => (url, [])
  else
    match splitAtFirst ';' url with
    | some (p1, p2) => (p1, p2)
    | none => (url, [])

/-- The parameter-splitting step of urlparse on top of a split result:
path parameters are separated only for schemes in uses_params and only
when the path contains a ';'. -/
def parseFromSplit (s : SplitResult) : ParseResult :=
  if s.scheme ∈ uses_params ∧ ';' ∈ s.path then
    ⟨s.scheme, s.netloc, (pySplitparams s.path).1, (pySplitparams s.path).2,
     s.query, s.fragment⟩
  else ⟨s.scheme, s.netloc, s.path, [], s.query, s.fragment⟩

/-- Models urllib.parse.urlparse with a default scheme. -/
def pyUrlparseD (dflt : Str) (url : Str) : Option ParseResult :=
  (pyUrlsplitD dflt url).map parseFromSplit

/-- urlparse with the default empty scheme. -/
def pyUrlparse : Str → Option ParseResult := pyUrlparseD []

/-- Models urllib.parse.urlunsplit (CPython 3.11). -/
def pyUrlunsplit (scheme netloc path query fragment : Str) : Str :=
  let url := path
  let url :=
    if netloc ≠ [] ∨ (scheme ≠ [] ∧ scheme ∈ uses_netloc ∧ url.take 2 ≠ ['/', '/']) then
      let url2 := if url ≠ [] ∧ url.take 1 ≠ ['/'] then '/' :: url else url
      '/' :: '/' :: (netloc ++ url2)
    else url
  let url := if scheme ≠ [] then scheme ++ ':' :: url else url
  let url := if query ≠ [] then url ++ '?' :: query else url
  if fragment ≠ [] then url ++ '#' :: fragment else url

/-- Models urllib.parse.urlunparse. -/
def pyUrlunparse (p : ParseResult) : Str :=
  let u := if p.params ≠ [] then p.path ++ ';' :: p.params else p.path
  pyUrlunsplit p.scheme p.netloc u p.query p.fragment

/-- Python s.rstrip(single slash): drop every trailing '/'. -/
def rstripSlash (s : Str) : Str := (s.reverse.dropWhile (fun c => c = '/')).reverse

/-- normalize_url from functions.py lines 5-29: lower-case scheme and
netloc, drop every trailing slash of the path (falling back to a single
slash when nothing remains, Python's  path.rstrip('/') or '/'), keep
params and query, drop the fragment.  urlparse raising is modelled by
the none branch, where the input is returned unchanged. -/
def normalize_url (url : Str) : Str :=
  match pyUrlparse url with
  | none => url
  | some p =>
    pyUrlunparse
      ⟨lowerStr p.scheme, lowerStr p.netloc,
       (let r := rstripSlash p.path; if r = [] then ['/'] else r),
       p.params, p.query, []⟩

/-- The fixed table of compound public suffixes in get_base_domain. -/
def two_part_tlds : List Str :=
  [toStr (r"co.uk"), toStr (r"com.au"), toStr (r"co.nz"),
   toStr (r"co.za"), toStr (r"com.br"), toStr (r"com.mx")]

/-- The last n elements of a list (Python parts[-n:] for n ≥ 1). -/
def lastN (n : Nat) (l : List Str) : List Str := l.drop (l.length - n)

/-- get_base_domain from functions.py lines 31-72.  Empty input yields
None (Python's falsy check); otherwise the part before the first ':' is
split on '.', compound suffixes from the fixed table keep three labels,
ordinary hosts keep two, and a host with fewer than two labels is
returned as is (after port stripping). -/
def get_base_domain (domain : Str) : Option Str :=
  if domain = [] then none
  else
    let d := ((pySplit ':' domain).headD [])
    let parts := pySplit '.' d
    if 3 ≤ parts.length ∧ joinSep '.' (lastN 2 parts) ∈ two_part_tlds then
      some (joinSep '.' (lastN 3 parts))
    else if 2 ≤ parts.length then
      some (joinSep '.' (lastN 2 parts))
    else
      some d

/-- Helper for urljoin's segment filtering: Python's slice assignment
segments[1:-1] = filter(None, segments[1:-1]) keeps the first and last
elements and drops empty strings in between. -/
def filterMiddleAux : List Str → List Str
  | [] => []
  | [a] => [a]
  | a :: b :: rest =>
    if a = [] then filterMiddleAux (b :: rest) else a :: filterMiddleAux (b :: rest)

/-- Applies the middle filtering, always keeping the head element. -/
def filterMiddle : List Str → List Str
  | [] => []
  | [a] => [a]
  | a :: b :: rest => a :: filterMiddleAux (b :: rest)

/-- Resolution of '.' and '..' path segments in urljoin; popping an empty
stack is ignored (Python catches the IndexError). -/
def resolveSegs (segs : List Str) : List Str :=
  segs.foldl
    (fun acc seg =>
      if seg = toStr (r"..") then acc.dropLast
      else if seg = toStr (r".") then acc
      else acc ++ [seg]) []

/-- Models urllib.parse.urljoin (CPython 3.11); none models a raised
ValueError from one of the inner urlparse calls. -/
def pyUrljoin (base url : Str) : Option Str :=
  if base = [] then some url
  else if url = [] then some base
  else
    match pyUrlparseD [] base with
    | none => none
    | some b =>
      match pyUrlparseD b.scheme url with
      | none => none
      | some u =>
        if u.scheme ≠ b.scheme ∨ u.scheme ∉ uses_relative then some url
        else if u.scheme ∈ uses_netloc ∧ u.netloc ≠ [] then some (pyUrlunparse u)
        else
          let netloc := if u.scheme ∈ uses_netloc then b.netloc else u.netloc
          if u.path = [] ∧ u.params = [] then
            some (pyUrlunparse
              ⟨u.scheme, netloc, b.path, b.params,
               (if u.query = [] then b.query else u.query), u.fragment⟩)
          else
            let base_parts :=
              let bp := pySplit '/' b.path
              if bp.getLast? = some [] then bp else bp.dropLast
            let segments :=
              if u.path.take 1 = ['/'] then pySplit '/' u.path
              else filterMiddle (base_parts ++ pySplit '/' u.path)
            let resolved := resolveSegs segments
            let resolved2 :=
              if segments.getLast? = some (toStr (r".")) ∨
                 segments.getLast? = some (toStr (r"..")) then resolved ++ [[]]
              else resolved
            let j := joinSep '/' resolved2
            some (pyUrlunparse
              ⟨u.scheme, netloc, (if j = [] then ['/'] else j),
               u.params, u.query, u.fragment⟩)

/-- An HTTP response as far as the crawler can observe it: the declared
content type (never inspected by the code) and the href attributes of
the anchor elements of the body, in document order.  An empty body, an
unparsable body and a body without anchors all yield an empty href
list, which the crawler treats identically (the loop body runs zero
times either way). -/
structure Response where
  contentType : Str
  hrefs : List Str
deriving DecidableEq

/-- The network: a URL either yields a response or fails (none models a
timeout, connection error, non-2xx status or any other absorbed
requests exception). -/
abbrev Web := Str → Option Response

/-- One classification decision of the crawler: on which page it
happened, the base domain computed for the link, and whether the link
was classified as external. -/
structure LinkEvent where
  page : Str
  linkBase : Str
  external : Bool
deriving DecidableEq

/-- The crawler's mutable state: the visited set and external-link set
(Python sets, modelled as insertion-ordered duplicate-free lists), plus
two observer fields recording what happened: the fetched URLs in order
and the classification events. -/
structure CrawlState where
  visited : List Str
  externals : List Str
  trace : List Str
  events : List LinkEvent
deriving DecidableEq

/-- Insertion into a Python set modelled as an ordered list. -/
def addSet (s : List Str) (x : Str) : List Str := if x ∈ s then s else s ++ [x]

/-- Scheme constant http. -/
def strHttp : Str := toStr (r"http")

/-- Scheme constant https. -/
def strHttps : Str := toStr (r"https")

/-- Records one classification event (observer field only). -/
def logEvent (st : CrawlState) (page lbd sbd : Str) : CrawlState :=
  ⟨st.visited, st.externals, st.trace, st.events ++ [⟨page, lbd, decide (lbd ≠ sbd)⟩]⟩

/-- external_links.add(normalized_absolute_url) of the source. -/
def addExternal (st : CrawlState) (nabs : Str) : CrawlState :=
  ⟨st.visited, addSet st.externals nabs, st.trace, st.events⟩

/-- visited.add(normalized_url) of the source (the URL is known not to
be in the set when this is called). -/
def markVisited (st : CrawlState) (nurl : Str) : CrawlState :=
  ⟨st.visited ++ [nurl], st.externals, st.trace, st.events⟩

/-- Records the HTTP GET in the fetch trace (observer field only). -/
def logFetch (st : CrawlState) (u : Str) : CrawlState :=
  ⟨st.visited, st.externals, st.trace ++ [u], st.events⟩

/-- The body of the per-link loop of crawl_external_links (functions.py
lines 159-217).  recurse is the recursive call at line 208; every
except/continue of the source is a branch returning the state
unchanged.  A classification event is recorded exactly when the source
reaches the internal/external comparison of line 192. -/
def linkStep (recurse : Str → CrawlState → CrawlState) (page sbd : Str)
    (st : CrawlState) (href : Str) : CrawlState :=
  if href = [] then st
  else
    match pyUrljoin page href with
    | none => st
    | some absolute =>
      match pyUrlparse absolute with
      | none => st
      | some pu =>
        if pu.scheme = strHttp ∨ pu.scheme = strHttps then
          if pu.netloc = [] then st
          else
            match get_base_domain pu.netloc with
            | none => st
            | some lbd =>
              if lbd = [] then st
              else
                if lbd ≠ sbd then
                  addExternal (logEvent st page lbd sbd) (normalize_url absolute)
                else if normalize_url absolute ∈ st.visited then
                  logEvent st page lbd sbd
                else if st.visited.length < 100 then
                  recurse (normalize_url absolute) (logEvent st page lbd sbd)
                else logEvent st page lbd sbd
        else st

/-- crawl_external_links from functions.py lines 74-222, as a state
transformer.  The fuel argument bounds the recursion depth; since every
recursive call is guarded by visited length below 100 and immediately
adds one element to visited, the call depth of the Python function
never exceeds 101, so running with fuel 101 is exact (the fuel-0 branch
is unreachable from the entry point). -/
def crawlAux (w : Web) : Nat → Str → CrawlState → CrawlState
  | 0, _, st => st
  | Nat.succ fuel, start_url, st =>
    if normalize_url start_url ∈ st.visited then st
    else
      match pyUrlparse start_url with
      | none => markVisited st (normalize_url start_url)
      | some sp =>
        match get_base_domain sp.netloc with
        | none => markVisited st (normalize_url start_url)
        | some sbd =>
          if sp.netloc = [] ∨ sbd = [] then markVisited st (normalize_url start_url)
          else
            match w start_url with
            | none => logFetch (markVisited st (normalize_url start_url)) start_url
            | some resp =>
              resp.hrefs.foldl
                (linkStep (crawlAux w fuel) start_url sbd)
                (logFetch (markVisited st (normalize_url start_url)) start_url)

/-- Fresh crawl state (the default None arguments of the source). -/
def initState : CrawlState := ⟨[], [], [], []⟩

/-- Recursion-depth bound sufficient for exactness, see crawlAux. -/
def crawlFuel : Nat := 101

/-- Full crawl from a seed, returning the final state. -/
def crawl_state (w : Web) (start_url : Str) : CrawlState :=
  crawlAux w crawlFuel start_url initState

/-- crawl_external_links' return value: the accumulated external-link
set (the source returns list(external_links)). -/
def crawl_external_links (w : Web) (start_url : Str) : List Str :=
  (crawl_state w start_url).externals

/-- Python string comparison (lexicographic by code point), as a Bool. -/
def lexLe : Str → Str → Bool
  | [], _ => true
  | _ :: _, [] => false
  | a :: as, b :: bs => if a < b then true else if b < a then false else lexLe as bs

/-- The sorting relation used to model Python's sorted on strings. -/
def strler (a b : Str) : Prop := lexLe a b = true

instance : DecidableRel strler := fun a b => by unfold strler; infer_instance

/-- The truthiness chain of simplify_external_links on a parsed URL:
require a truthy netloc, reduce it to its base domain, require that to
be truthy. -/
def truthyBase (p : ParseResult) : Option Str :=
  if p.netloc = [] then none
  else
    match get_base_domain p.netloc with
    | none => none
    | some bd => if bd = [] then none else some bd

/-- The per-URL body of simplify_external_links (functions.py lines
242-251): parse the URL (a raised exception, none, is skipped), then
apply the truthiness chain; none means the URL contributes nothing. -/
def urlBaseDomain (url : Str) : Option Str :=
  match pyUrlparse url with
  | none => none
  | some p => truthyBase p

/-- The unique_domains set of simplify_external_links (functions.py
lines 239-252), as an insertion-ordered duplicate-free list. -/
def collectDomains (links : List Str) : List Str :=
  links.foldl
    (fun acc url =>
      match urlBaseDomain url with
      | some bd => addSet acc bd
      | none => acc) []

/-- simplify_external_links from functions.py lines 224-254: for each
URL take the netloc, reduce it to its base domain, skip falsy values,
collect into a set and return the sorted list (sorted(list(set))). -/
def simplify_external_links (external_links : List Str) : List Str :=
  List.insertionSort strler (collectDomains external_links)

/-- The crawl pipeline as invoked by update_links_db.py lines 56-60:
crawl the site, then simplify the collected external links.  This is
the end-to-end operation the specification calls crawl. -/
def crawlPipeline (w : Web) (start_url : Str) : List Str :=
  simplify_external_links (crawl_external_links w start_url)

theorem lexLe_cons (a b : Char) (as bs : Str) :
    lexLe (a :: as) (b :: bs) =
      if a < b then true else if b < a then false else lexLe as bs := rfl

theorem lexLe_total : ∀ a b : Str, lexLe a b = true ∨ lexLe b a = true
  | [], _ => Or.inl rfl
  | _ :: _, [] => Or.inr rfl
  | a :: as, b :: bs => by
    rw [lexLe_cons, lexLe_cons]
    rcases lt_trichotomy a b with h | rfl | h
    · left; rw [if_pos h]
    · simp only [if_neg (lt_irrefl a)]
      exact lexLe_total as bs
    · right; rw [if_pos h]

theorem lexLe_trans : ∀ a b c : Str, lexLe a b = true → lexLe b c = true → lexLe a c = true
  | [], _, _, _, _ => rfl
  | _ :: _, [], _, h, _ => by exact absurd h (by simp [lexLe])
  | _ :: _, _ :: _, [], _, h => by exact absurd h (by simp [lexLe])
  | a :: as, b :: bs, c :: cs, h1, h2 => by
    rw [lexLe_cons] at h1 h2 ⊢
    rcases lt_trichotomy a b with hab | rfl | hab
    · rcases lt_trichotomy b c with hbc | rfl | hbc
      · rw [if_pos (lt_trans hab hbc)]
      · rw [if_pos hab]
      · rw [if_neg (asymm hbc), if_pos hbc] at h2
        exact absurd h2 (by decide)
    · rcases lt_trichotomy a c with hac | rfl | hac
      · rw [if_pos hac]
      · simp only [if_neg (lt_irrefl a)] at h1 h2 ⊢
        exact lexLe_trans as bs cs h1 h2
      · rw [if_neg (asymm hac), if_pos hac] at h2
        exact absurd h2 (by decide)
    · rw [if_neg (asymm hab), if_pos hab] at h1
      exact absurd h1 (by decide)

instance : IsTotal Str strler := ⟨fun a b => lexLe_total a b⟩

instance : IsTrans Str strler := ⟨fun a b c => lexLe_trans a b c⟩

theorem mem_addSet {s : List Str} {x d : Str} : d ∈ addSet s x ↔ d ∈ s ∨ d = x := by
  unfold addSet
  split
  · rename_i h
    constructor
    · exact Or.inl
    · rintro (h1 | rfl)
      · exact h1
      · exact h
  · simp

theorem addSet_nodup {s : List Str} {x : Str} (h : s.Nodup) : (addSet s x).Nodup := by
  unfold addSet
  split
  · exact h
  · rename_i hx
    simp [List.nodup_append, h, hx]

theorem collect_aux_mem (step : List Str → Str → List Str)
    (hstep : step = fun acc url =>
      match urlBaseDomain url with
      | some bd => addSet acc bd
      | none => acc) :
    ∀ (links : List Str) (acc : List Str) (d : Str),
      d ∈ links.foldl step acc ↔ d ∈ acc ∨ ∃ u ∈ links, urlBaseDomain u = some d := by
  intro links
  induction links with
  | nil => simp
  | cons u ls ih =>
    intro acc d
    rw [List.foldl_cons, ih]
    subst hstep
    simp only []
    constructor
    · rintro (hmem | ⟨v, hv, hvd⟩)
      · rcases hu : urlBaseDomain u with _ | bd
        · rw [hu] at hmem
          exact Or.inl hmem
        · rw [hu] at hmem
          rcases mem_addSet.mp hmem with h | rfl
          · exact Or.inl h
          · exact Or.inr ⟨u, List.mem_cons_self u ls, hu⟩
      · exact Or.inr ⟨v, List.mem_cons_of_mem u hv, hvd⟩
    · rintro (hmem | ⟨v, hv, hvd⟩)
      · left
        rcases hu : urlBaseDomain u with _ | bd
        · exact hmem
        · exact mem_addSet.mpr (Or.inl hmem)
      · rcases List.mem_cons.mp hv with rfl | hv2
        · left
          rw [hvd]
          exact mem_addSet.mpr (Or.inr rfl)
        · exact Or.inr ⟨v, hv2, hvd⟩

theorem mem_collectDomains {links : List Str} {d : Str} :
    d ∈ collectDomains links ↔ ∃ u ∈ links, urlBaseDomain u = some d := by
  unfold collectDomains
  rw [collect_aux_mem _ rfl links [] d]
  simp

theorem collect_aux_nodup (step : List Str → Str → List Str)
    (hstep : step = fun acc url =>
      match urlBaseDomain url with
      | some bd => addSet acc bd
      | none => acc) :
    ∀ (links : List Str) (acc : List Str), acc.Nodup → (links.foldl step acc).Nodup := by
  intro links
  induction links with
  | nil => intro acc h; simpa using h
  | cons u ls ih =>
    intro acc h
    rw [List.foldl_cons]
    apply ih
    subst hstep
    simp only []
    rcases urlBaseDomain u with _ | bd
    · exact h
    · exact addSet_nodup h

theorem collectDomains_nodup (links : List Str) : (collectDomains links).Nodup :=
  collect_aux_nodup _ rfl links [] List.nodup_nil

theorem simplify_sorted (links : List Str) :
    List.Sorted strler (simplify_external_links links) :=
  List.sorted_insertionSort strler (collectDomains links)

theorem simplify_nodup (links : List Str) : (simplify_external_links links).Nodup :=
  (List.perm_insertionSort strler (collectDomains links)).nodup_iff.mpr
    (collectDomains_nodup links)

theorem mem_simplify {links : List Str} {d : Str} :
    d ∈ simplify_external_links links ↔ ∃ u ∈ links, urlBaseDomain u = some d := by
  rw [simplify_external_links,
    (List.perm_insertionSort strler (collectDomains links)).mem_iff]
  exact mem_collectDomains

theorem splitAtFirst_none {c : Char} : ∀ {s : Str}, c ∉ s → splitAtFirst c s = none := by
  intro s
  induction s with
  | nil => intro _; rfl
  | cons a rest ih =>
    intro h
    have ha : a ≠ c := fun he => h (he ▸ List.mem_cons_self a rest)
    have hr : c ∉ rest := fun hm => h (List.mem_cons_of_mem a hm)
    simp only [splitAtFirst, if_neg ha, ih hr]

theorem splitAtFirst_some {c : Char} :
    ∀ {s a b : Str}, splitAtFirst c s = some (a, b) → s = a ++ c :: b ∧ c ∉ a := by
  intro s
  induction s with
  | nil => intro a b h; cases h
  | cons x rest ih =>
    intro a b h
    by_cases hx : x = c
    · rw [splitAtFirst, if_pos hx] at h
      obtain ⟨rfl, rfl⟩ : ([] : Str) = a ∧ rest = b := by
        have := Option.some.inj h
        exact ⟨congrArg Prod.fst this, congrArg Prod.snd this⟩
      exact ⟨by simp [hx], by simp⟩
    · rw [splitAtFirst, if_neg hx] at h
      cases hr : splitAtFirst c rest with
      | none => rw [hr] at h; cases h
      | some p =>
        rw [hr] at h
        obtain ⟨l, r⟩ := p
        have hinj := Option.some.inj h
        obtain ⟨ha, hb⟩ : x :: l = a ∧ r = b :=
          ⟨congrArg Prod.fst hinj, congrArg Prod.snd hinj⟩
        obtain ⟨hs, hcl⟩ := ih hr
        subst ha; subst hb
        constructor
        · rw [hs]; rfl
        · intro hmem
          rcases List.mem_cons.mp hmem with he | hl
          · exact hx he.symm
          · exact hcl hl

theorem splitAtFirst_append {c : Char} :
    ∀ {a : Str} (b : Str), c ∉ a → splitAtFirst c (a ++ c :: b) = some (a, b) := by
  intro a
  induction a with
  | nil => intro b _; simp [splitAtFirst]
  | cons x xs ih =>
    intro b h
    have hx : x ≠ c := fun he => h (he ▸ List.mem_cons_self x xs)
    have hxs : c ∉ xs := fun hm => h (List.mem_cons_of_mem x hm)
    simp only [List.cons_append, splitAtFirst, if_neg hx, List.append_eq, ih b hxs]

theorem takeUntilDelims_fst_no_delim :
    ∀ (s : Str), ∀ c ∈ (takeUntilDelims s).1, isDelimChar c = false := by
  intro s
  induction s with
  | nil => intro c h; simp [takeUntilDelims] at h
  | cons a rest ih =>
    intro c h
    by_cases hd : isDelimChar a = true
    · simp [takeUntilDelims, hd] at h
    · simp only [takeUntilDelims, if_neg hd] at h
      rcases List.mem_cons.mp h with rfl | h2
      · simpa using hd
      · exact ih c h2

theorem pyUrlsplitD_some {dflt url : Str} {s : SplitResult}
    (h : pyUrlsplitD dflt url = some s) : s = urlsplitCore dflt url := by
  unfold pyUrlsplitD at h
  split at h
  · cases h
  · exact (Option.some.inj h).symm

theorem urlsplitCore_netloc (dflt url : Str) :
    (urlsplitCore dflt url).netloc =
      (if (splitScheme url).2.take 2 = ['/', '/']
       then takeUntilDelims ((splitScheme url).2.drop 2)
       else (([] : Str), (splitScheme url).2)).1 := rfl

theorem netloc_no_delim {dflt url : Str} {s : SplitResult}
    (h : pyUrlsplitD dflt url = some s) : ∀ c ∈ s.netloc, isDelimChar c = false := by
  obtain rfl := pyUrlsplitD_some h
  intro c hc
  rw [urlsplitCore_netloc] at hc
  split at hc
  · exact takeUntilDelims_fst_no_delim _ c hc
  · simp at hc

theorem pySplit_ne_nil (c : Char) (s : Str) : pySplit c s ≠ [] := by
  cases s with
  | nil => simp [pySplit]
  | cons a rest =>
    unfold pySplit
    by_cases h : a = c
    · simp [h]
    · simp only [if_neg h]
      cases pySplit c rest <;> simp

theorem pySplit_piece_chars :
    ∀ (s : Str) (c : Char) (piece : Str), piece ∈ pySplit c s →
      ∀ x ∈ piece, x ∈ s ∧ x ≠ c := by
  intro s
  induction s with
  | nil =>
    intro c piece h x hx
    simp only [pySplit, List.mem_singleton] at h
    subst h; simp at hx
  | cons a rest ih =>
    intro c piece h x hx
    unfold pySplit at h
    by_cases hac : a = c
    · rw [if_pos hac] at h
      rcases List.mem_cons.mp h with rfl | h2
      · simp at hx
      · obtain ⟨hxs, hxc⟩ := ih c piece h2 x hx
        exact ⟨List.mem_cons_of_mem a hxs, hxc⟩
    · rw [if_neg hac] at h
      cases hsp : pySplit c rest with
      | nil => exact absurd hsp (pySplit_ne_nil c rest)
      | cons l ls =>
        rw [hsp] at h
        rcases List.mem_cons.mp h with rfl | h2
        · rcases List.mem_cons.mp hx with rfl | hx2
          · exact ⟨List.mem_cons_self _ _, hac⟩
          · obtain ⟨hxs, hxc⟩ := ih c l (by rw [hsp]; exact List.mem_cons_self l ls) x hx2
            exact ⟨List.mem_cons_of_mem a hxs, hxc⟩
        · obtain ⟨hxs, hxc⟩ :=
            ih c piece (by rw [hsp]; exact List.mem_cons_of_mem l h2) x hx
          exact ⟨List.mem_cons_of_mem a hxs, hxc⟩

theorem joinSep_chars :
    ∀ (l : List Str) (sep : Char) (x : Char), x ∈ joinSep sep l →
      x = sep ∨ ∃ piece ∈ l, x ∈ piece := by
  intro l
  induction l with
  | nil => intro sep x h; simp [joinSep] at h
  | cons s rest ih =>
    intro sep x h
    cases rest with
    | nil => right; exact ⟨s, by simp, by simpa [joinSep] using h⟩
    | cons t rs =>
      rw [joinSep] at h
      rcases List.mem_append.mp h with h1 | h2
      · right; exact ⟨s, List.mem_cons_self _ _, h1⟩
      · rcases List.mem_cons.mp h2 with rfl | h3
        · left; rfl
        · rcases ih sep x h3 with h4 | ⟨p, hp, hxp⟩
          · left; exact h4
          · right; exact ⟨p, List.mem_cons_of_mem s hp, hxp⟩

theorem headD_mem_of_ne_nil {l : List Str} (h : l ≠ []) : l.headD [] ∈ l := by
  cases l with
  | nil => exact absurd rfl h
  | cons a rest => simp

theorem get_base_domain_chars {domain bd : Str} (h : get_base_domain domain = some bd) :
    ∀ x ∈ bd, x = '.' ∨ (x ∈ domain ∧ x ≠ ':') := by
  have hdchars : ∀ y ∈ (pySplit ':' domain).headD [], y ∈ domain ∧ y ≠ ':' := by
    intro y hy
    exact pySplit_piece_chars domain ':' _
      (headD_mem_of_ne_nil (pySplit_ne_nil ':' domain)) y hy
  have hpieces : ∀ n (piece : Str), piece ∈ lastN n (pySplit '.' ((pySplit ':' domain).headD [])) →
      ∀ x ∈ piece, x ∈ domain ∧ x ≠ ':' ∧ x ≠ '.' := by
    intro n piece hp x hx
    have hp2 : piece ∈ pySplit '.' ((pySplit ':' domain).headD []) :=
      List.drop_subset _ _ hp
    obtain ⟨hxd, hxdot⟩ := pySplit_piece_chars _ '.' piece hp2 x hx
    obtain ⟨hxdom, hxcolon⟩ := hdchars x hxd
    exact ⟨hxdom, hxcolon, hxdot⟩
  simp only [get_base_domain] at h
  split at h
  · cases h
  · intro x hx
    split at h
    · obtain rfl := Option.some.inj h
      rcases joinSep_chars _ '.' x hx with hdot | ⟨piece, hp, hxp⟩
      · exact Or.inl hdot
      · obtain ⟨h1, h2, _⟩ := hpieces 3 piece hp x hxp
        exact Or.inr ⟨h1, h2⟩
    · split at h
      · obtain rfl := Option.some.inj h
        rcases joinSep_chars _ '.' x hx with hdot | ⟨piece, hp, hxp⟩
        · exact Or.inl hdot
        · obtain ⟨h1, h2, _⟩ := hpieces 2 piece hp x hxp
          exact Or.inr ⟨h1, h2⟩
      · obtain rfl := Option.some.inj h
        obtain ⟨h1, h2⟩ := hdchars x hx
        exact Or.inr ⟨h1, h2⟩

theorem parseFromSplit_scheme (s : SplitResult) : (parseFromSplit s).scheme = s.scheme := by
  unfold parseFromSplit; split <;> rfl

theorem parseFromSplit_netloc (s : SplitResult) : (parseFromSplit s).netloc = s.netloc := by
  unfold parseFromSplit; split <;> rfl

theorem parseFromSplit_query (s : SplitResult) : (parseFromSplit s).query = s.query := by
  unfold parseFromSplit; split <;> rfl

theorem parseFromSplit_fragment (s : SplitResult) :
    (parseFromSplit s).fragment = s.fragment := by
  unfold parseFromSplit; split <;> rfl

theorem pyUrlparseD_split {dflt url : Str} {p : ParseResult}
    (h : pyUrlparseD dflt url = some p) :
    ∃ s, pyUrlsplitD dflt url = some s ∧ p = parseFromSplit s := by
  unfold pyUrlparseD at h
  cases hs : pyUrlsplitD dflt url with
  | none => rw [hs] at h; cases h
  | some s =>
    rw [hs] at h
    exact ⟨s, rfl, (Option.some.inj h).symm⟩

theorem urlBaseDomain_none_eq {u : Str} (h : pyUrlparse u = none) :
    urlBaseDomain u = none := by
  unfold urlBaseDomain; rw [h]

theorem urlBaseDomain_some_eq {u : Str} {p : ParseResult} (h : pyUrlparse u = some p) :
    urlBaseDomain u = truthyBase p := by
  unfold urlBaseDomain; rw [h]

theorem truthyBase_some {p : ParseResult} {bd : Str} (h : truthyBase p = some bd) :
    p.netloc ≠ [] ∧ get_base_domain p.netloc = some bd ∧ bd ≠ [] := by
  unfold truthyBase at h
  by_cases hn : p.netloc = []
  · rw [if_pos hn] at h; cases h
  · rw [if_neg hn] at h
    cases hb : get_base_domain p.netloc with
    | none => rw [hb] at h; cases h
    | some bd2 =>
      rw [hb] at h
      have h2 : (if bd2 = [] then none else some bd2) = some bd := h
      by_cases hbd : bd2 = []
      · rw [if_pos hbd] at h2; cases h2
      · rw [if_neg hbd] at h2
        obtain rfl := Option.some.inj h2
        exact ⟨hn, rfl, hbd⟩

theorem urlBaseDomain_some_inv {u bd : Str} (h : urlBaseDomain u = some bd) :
    ∃ p, pyUrlparse u = some p ∧ p.netloc ≠ [] ∧
      get_base_domain p.netloc = some bd ∧ bd ≠ [] := by
  cases hp : pyUrlparse u with
  | none => rw [urlBaseDomain_none_eq hp] at h; cases h
  | some p =>
    rw [urlBaseDomain_some_eq hp] at h
    exact ⟨p, rfl, truthyBase_some h⟩

theorem urlBaseDomain_chars {u bd : Str} (h : urlBaseDomain u = some bd) :
    ':' ∉ bd ∧ '/' ∉ bd := by
  obtain ⟨p, hp, hn, hb, hbd⟩ := urlBaseDomain_some_inv h
  obtain ⟨s, hs, rfl⟩ := pyUrlparseD_split hp
  have hnode : ∀ c ∈ (parseFromSplit s).netloc, isDelimChar c = false := by
    rw [parseFromSplit_netloc]; exact netloc_no_delim hs
  constructor
  · intro hc
    rcases get_base_domain_chars hb ':' hc with hdot | ⟨_, hne⟩
    · cases hdot
    · exact hne rfl
  · intro hc
    rcases get_base_domain_chars hb '/' hc with hdot | ⟨hcin, _⟩
    · cases hdot
    · have := hnode '/' hcin
      simp [isDelimChar] at this

theorem take_two_slash_mem {d : Str} (h : d.take 2 = ['/', '/']) : '/' ∈ d := by
  have : '/' ∈ d.take 2 := by rw [h]; simp
  exact List.take_subset 2 d this

theorem pyUrlsplit_no_colon_slash {d : Str} (h1 : ':' ∉ d) (h2 : '/' ∉ d) :
    ∃ s, pyUrlsplit d = some s ∧ s.netloc = [] := by
  have hss : splitScheme d = ([], d) := by
    unfold splitScheme
    rw [splitAtFirst_none h1]
  have ht : ¬(d.take 2 = ['/', '/']) := fun hc => h2 (take_two_slash_mem hc)
  have hcore : (urlsplitCore [] d).netloc = [] := by
    rw [urlsplitCore_netloc, hss]
    simp only [if_neg ht]
  refine ⟨urlsplitCore [] d, ?_, hcore⟩
  unfold pyUrlsplit pyUrlsplitD
  rw [hcore]
  rfl

theorem urlBaseDomain_no_host {d : Str} (h1 : ':' ∉ d) (h2 : '/' ∉ d) :
    urlBaseDomain d = none := by
  obtain ⟨s, hs, hnl⟩ := pyUrlsplit_no_colon_slash h1 h2
  have hp : pyUrlparse d = some (parseFromSplit s) := by
    unfold pyUrlparse pyUrlparseD
    rw [show pyUrlsplitD [] d = some s from hs]
    rfl
  have hpn : (parseFromSplit s).netloc = [] := by rw [parseFromSplit_netloc]; exact hnl
  rw [urlBaseDomain_some_eq hp]
  unfold truthyBase
  rw [if_pos hpn]

theorem collect_aux_none {l : List Str} (h : ∀ d ∈ l, urlBaseDomain d = none) :
    ∀ acc, l.foldl
      (fun acc url =>
        match urlBaseDomain url with
        | some bd => addSet acc bd
        | none => acc) acc = acc := by
  induction l with
  | nil => intro acc; rfl
  | cons u ls ih =>
    intro acc
    rw [List.foldl_cons, h u (List.mem_cons_self u ls)]
    exact ih (fun d hd => h d (List.mem_cons_of_mem u hd)) acc

theorem simplify_simplify_eq_nil (X : List Str) :
    simplify_external_links (simplify_external_links X) = [] := by
  have hall : ∀ d ∈ simplify_external_links X, urlBaseDomain d = none := by
    intro d hd
    obtain ⟨u, _, hud⟩ := mem_simplify.mp hd
    obtain ⟨hc, hs⟩ := urlBaseDomain_chars hud
    exact urlBaseDomain_no_host hc hs
  rw [simplify_external_links, collectDomains, collect_aux_none hall]
  rfl

theorem normalize_url_none {u : Str} (h : pyUrlparse u = none) : normalize_url u = u := by
  unfold normalize_url; rw [h]

theorem normalize_url_some {u : Str} {p : ParseResult} (h : pyUrlparse u = some p) :
    normalize_url u =
      pyUrlunparse
        ⟨lowerStr p.scheme, lowerStr p.netloc,
         (if rstripSlash p.path = [] then ['/'] else rstripSlash p.path),
         p.params, p.query, []⟩ := by
  unfold normalize_url; rw [h]

/-- Removal of every trailing slash, stated as a front-to-back
recursion (independent formulation of Python's rstrip, compared with
the model's right-to-left one below). -/
def dropTrailingSlashes : Str → Str
  | [] => []
  | c :: cs =>
    match dropTrailingSlashes cs with
    | [] => if c = '/' then [] else [c]
    | r => c :: r

theorem rstripSlash_nil : rstripSlash [] = [] := rfl

theorem rstripSlash_cons (c : Char) (cs : Str) :
    rstripSlash (c :: cs) =
      match rstripSlash cs with
      | [] => if c = '/' then [] else [c]
      | r => c :: r := by
  unfold rstripSlash
  rw [List.reverse_cons, List.dropWhile_append]
  cases hr : (cs.reverse.dropWhile (fun x => x = '/')) with
  | nil =>
    simp only [List.isEmpty_nil, if_pos]
    by_cases hc : c = '/'
    · simp [List.dropWhile, hc]
    · simp [List.dropWhile, hc]
  | cons y ys =>
    simp only [List.isEmpty_cons, if_neg]
    simp [List.reverse_append]

theorem dropTrailingSlashes_eq (s : Str) : dropTrailingSlashes s = rstripSlash s := by
  induction s with
  | nil => rfl
  | cons c cs ih =>
    rw [rstripSlash_cons, dropTrailingSlashes, ih]

/-- Claim C7, counterexample: the normalizer removes every trailing
slash of the path, not exactly one.  On https://ex.com/a// the claim
predicts https://ex.com/a/ but the code yields https://ex.com/a. -/
theorem c7_counterexample :
    normalize_url (toStr (r"https://ex.com/a//")) = toStr (r"https://ex.com/a") ∧
    normalize_url (toStr (r"https://ex.com/a//")) ≠ toStr (r"https://ex.com/a/") :=
  ⟨by decide, by decide⟩

/-- Claim C7 (amended): for every URL u, normalize_url lower-cases the
scheme and host, strips the fragment, removes ALL trailing slashes of
the path (the path becomes a single '/' when nothing remains), leaves
the query string and path parameters untouched, and on any parse
failure returns u unchanged without throwing. -/
theorem c7_normalize_characterisation (u : Str) :
    (pyUrlparse u = none → normalize_url u = u) ∧
    (∀ p : ParseResult, pyUrlparse u = some p →
      normalize_url u =
        pyUrlunparse
          ⟨lowerStr p.scheme, lowerStr p.netloc,
           (if dropTrailingSlashes p.path = [] then ['/'] else dropTrailingSlashes p.path),
           p.params, p.query, []⟩) := by
  constructor
  · exact normalize_url_none
  · intro p hp
    rw [dropTrailingSlashes_eq]
    exact normalize_url_some hp

/-- Witness for the amended claim C7 at a concrete URL. -/
theorem c7_witness :
    pyUrlparse (toStr (r"https://EX.com/a//")) =
      some ⟨toStr (r"https"), toStr (r"EX.com"), toStr (r"/a//"), [], [], []⟩ ∧
    normalize_url (toStr (r"https://EX.com/a//")) =
      pyUrlunparse
        ⟨lowerStr (toStr (r"https")), lowerStr (toStr (r"EX.com")),
         (if dropTrailingSlashes (toStr (r"/a//")) = [] then ['/']
          else dropTrailingSlashes (toStr (r"/a//"))),
         [], [], []⟩ :=
  ⟨by decide,
   (c7_normalize_characterisation (toStr (r"https://EX.com/a//"))).2
     ⟨toStr (r"https"), toStr (r"EX.com"), toStr (r"/a//"), [], [], []⟩ (by decide)⟩

/-- Claim C6, counterexample: simplify is not idempotent.  For
X = [https://google.com], simplify(X) = [google.com], but applying
simplify again yields [] because a bare domain has no URL host. -/
theorem c6_counterexample :
    simplify_external_links [toStr (r"https://google.com")] = [toStr (r"google.com")] ∧
    simplify_external_links (simplify_external_links [toStr (r"https://google.com")]) = [] ∧
    ([] : List Str) ≠ [toStr (r"google.com")] :=
  ⟨by decide, by decide, by decide⟩

/-- Claim C6 (amended): for every input collection X of URLs, the
output of simplify is sorted ascending with no duplicate entries;
however simplify applied to its own output always returns the empty
list (bare domain strings carry no scheme or host), so
simplify(simplify_as_set(X)) equals simplify(X) exactly when the
latter is empty. -/
theorem c6_simplify_sorted_nodup_not_idempotent (X : List Str) :
    List.Sorted strler (simplify_external_links X) ∧
    (simplify_external_links X).Nodup ∧
    simplify_external_links (simplify_external_links X) = [] :=
  ⟨simplify_sorted X, simplify_nodup X, simplify_simplify_eq_nil X⟩

/-- The part of a host before the first colon (port stripping). -/
def portStripped (host : Str) : Str :=
  match splitAtFirst ':' host with
  | some p => p.1
  | none => host

/-- The last n labels of a label list, written from the back as the
specification does (parts[-n:]). -/
def lastLabels (n : Nat) (labels : List Str) : List Str :=
  (labels.reverse.take n).reverse

/-- The base-domain computation as the specification words it: strip an
explicit port, split on dots, keep the last three labels over a known
compound suffix, otherwise the last two, otherwise the whole stripped
host. -/
def baseDomainSpec (host : Str) : Str :=
  let stripped := portStripped host
  let labels := pySplit '.' stripped
  if 3 ≤ labels.length ∧ joinSep '.' (lastLabels 2 labels) ∈ two_part_tlds then
    joinSep '.' (lastLabels 3 labels)
  else if 2 ≤ labels.length then joinSep '.' (lastLabels 2 labels)
  else stripped

theorem pySplit_headD (c : Char) :
    ∀ s : Str, (pySplit c s).headD [] =
      (match splitAtFirst c s with
       | some p => p.1
       | none => s) := by
  intro s
  induction s with
  | nil => rfl
  | cons a rest ih =>
    by_cases hac : a = c
    · subst hac
      simp [pySplit, splitAtFirst]
    · unfold pySplit splitAtFirst
      rw [if_neg hac, if_neg hac]
      cases hsp : pySplit c rest with
      | nil => exact absurd hsp (pySplit_ne_nil c rest)
      | cons l ls =>
        have hl : l = (pySplit c rest).headD [] := by rw [hsp]; rfl
        rw [ih] at hl
        cases hs2 : splitAtFirst c rest with
        | none =>
          rw [hs2] at hl
          simp [hl]
        | some p =>
          rw [hs2] at hl
          simp [hl]

theorem lastN_eq_lastLabels (n : Nat) (l : List Str) : lastN n l = lastLabels n l :=
  List.rtake_eq_reverse_take_reverse l n

/-- Claim C9: characterisation of get_base_domain, plus the three
concrete examples named by the specification. -/
theorem c9_base_domain_characterisation :
    get_base_domain [] = none ∧
    (∀ host : Str, host ≠ [] → get_base_domain host = some (baseDomainSpec host)) ∧
    get_base_domain (toStr (r"blog.pleo.io")) = some (toStr (r"pleo.io")) ∧
    get_base_domain (toStr (r"example.co.uk")) = some (toStr (r"example.co.uk")) ∧
    get_base_domain (toStr (r"pleo.io")) = some (toStr (r"pleo.io")) := by
  refine ⟨rfl, ?_, by decide, by decide, by decide⟩
  intro host hne
  simp only [get_base_domain, baseDomainSpec, portStripped, if_neg hne,
    pySplit_headD ':' host, lastN_eq_lastLabels, apply_ite Option.some]

/-- Witness for claim C9's universally quantified part. -/
theorem c9_witness :
    (toStr (r"blog.pleo.io") ≠ ([] : Str)) ∧
    get_base_domain (toStr (r"blog.pleo.io")) =
      some (baseDomainSpec (toStr (r"blog.pleo.io"))) :=
  ⟨by decide,
   c9_base_domain_characterisation.2.1 (toStr (r"blog.pleo.io")) (by decide)⟩

/-- A web with the same pages and links but arbitrarily rewritten
content types. -/
def retypeWeb (f : Str → Str → Str) (w : Web) : Web :=
  fun u => (w u).map (fun resp => ⟨f u resp.contentType, resp.hrefs⟩)

theorem crawlAux_retype (f : Str → Str → Str) (w : Web) :
    ∀ fuel u st, crawlAux (retypeWeb f w) fuel u st = crawlAux w fuel u st := by
  intro fuel
  induction fuel with
  | zero => intro u st; rfl
  | succ n ih =>
    intro u st
    have hrec : crawlAux (retypeWeb f w) n = crawlAux w n :=
      funext fun u2 => funext fun st2 => ih u2 st2
    simp only [crawlAux, hrec]
    cases hw : w u with
    | none => simp [retypeWeb, hw]
    | some resp => simp [retypeWeb, hw]

/-- The single-seed web used as counterexample for claim C4: the seed
page is served with an image content type yet contains an anchor to an
external site. -/
def c4web : Web := fun u =>
  if u = toStr (r"https://seed.com/") then
    some ⟨toStr (r"image/png"), [toStr (r"https://other.com/x")]⟩
  else none

/-- Claim C4, counterexample: the code never inspects the content type.
A response declared image/png (neither text/html nor
application/xhtml+xml) is still parsed and its external link is
collected, so the fetch outcome is not empty. -/
theorem c4_counterexample :
    c4web (toStr (r"https://seed.com/")) =
      some ⟨toStr (r"image/png"), [toStr (r"https://other.com/x")]⟩ ∧
    toStr (r"image/png") ≠ toStr (r"text/html") ∧
    toStr (r"image/png") ≠ toStr (r"application/xhtml+xml") ∧
    crawl_external_links c4web (toStr (r"https://seed.com/")) =
      [normalize_url (toStr (r"https://other.com/x"))] ∧
    crawl_external_links c4web (toStr (r"https://seed.com/")) ≠ [] :=
  ⟨by decide, by decide, by decide, by decide, by decide⟩

/-- Claim C4 (amended): the crawler's outcome does not depend on
response content types at all.  Rewriting every content type in the
web arbitrarily (in particular to a non-HTML one) leaves the entire
crawl state, and hence the collected external links, unchanged; only a
missing response or an empty body yields an empty outcome. -/
theorem c4_crawl_independent_of_content_type (f : Str → Str → Str) (w : Web)
    (start_url : Str) :
    crawl_state (retypeWeb f w) start_url = crawl_state w start_url ∧
    crawl_external_links (retypeWeb f w) start_url = crawl_external_links w start_url := by
  constructor
  · unfold crawl_state
    exact crawlAux_retype f w crawlFuel start_url initState
  · unfold crawl_external_links crawl_state
    rw [crawlAux_retype f w crawlFuel start_url initState]

theorem foldl_preserve {P : CrawlState → Prop} (f : CrawlState → Str → CrawlState)
    (hf : ∀ st a, P st → P (f st a)) :
    ∀ (l : List Str) (st : CrawlState), P st → P (l.foldl f st) := by
  intro l
  induction l with
  | nil => intro st h; exact h
  | cons a as ih => intro st h; rw [List.foldl_cons]; exact ih _ (hf st a h)

theorem linkStep_visited_le (recurse : Str → CrawlState → CrawlState)
    (hrec : ∀ (u : Str) (st : CrawlState),
      st.visited.length < 100 → (recurse u st).visited.length ≤ 100) :
    ∀ (page sbd : Str) (st : CrawlState) (href : Str), st.visited.length ≤ 100 →
      (linkStep recurse page sbd st href).visited.length ≤ 100 := by
  intro page sbd st href h
  unfold linkStep
  repeat' split
  any_goals exact h
  rename_i hguard
  exact hrec _ _ hguard

theorem crawlAux_visited_le (w : Web) :
    ∀ (fuel : Nat) (u : Str) (st : CrawlState), st.visited.length < 100 →
      (crawlAux w fuel u st).visited.length ≤ 100 := by
  intro fuel
  induction fuel with
  | zero => intro u st h; exact le_of_lt h
  | succ n ih =>
    intro u st h
    have h1 : (markVisited st (normalize_url u)).visited.length ≤ 100 := by
      unfold markVisited
      simp only [List.length_append, List.length_cons, List.length_nil]
      omega
    simp only [crawlAux]
    split
    · exact le_of_lt h
    · split
      · exact h1
      · split
        · exact h1
        · split
          · exact h1
          · split
            · exact h1
            · exact foldl_preserve _
                (fun st2 a h2 => linkStep_visited_le (crawlAux w n) ih u _ st2 a h2)
                _ _ h1

theorem linkStep_visited_sublist (recurse : Str → CrawlState → CrawlState)
    (hrec : ∀ (u : Str) (st : CrawlState), st.visited.Sublist (recurse u st).visited) :
    ∀ (page sbd : Str) (st : CrawlState) (href : Str),
      st.visited.Sublist (linkStep recurse page sbd st href).visited := by
  intro page sbd st href
  unfold linkStep
  repeat' split
  any_goals exact List.Sublist.refl _
  exact hrec _ (logEvent st page _ sbd)

theorem foldl_visited_sublist (f : CrawlState → Str → CrawlState)
    (hf : ∀ (st : CrawlState) (a : Str), st.visited.Sublist (f st a).visited) :
    ∀ (l : List Str) (st : CrawlState), st.visited.Sublist (l.foldl f st).visited := by
  intro l
  induction l with
  | nil => intro st; exact List.Sublist.refl _
  | cons a as ih =>
    intro st
    rw [List.foldl_cons]
    exact (hf st a).trans (ih (f st a))

theorem crawlAux_visited_sublist (w : Web) :
    ∀ (fuel : Nat) (u : Str) (st : CrawlState),
      st.visited.Sublist (crawlAux w fuel u st).visited := by
  intro fuel
  induction fuel with
  | zero => intro u st; exact List.Sublist.refl _
  | succ n ih =>
    intro u st
    have hbase : st.visited.Sublist (markVisited st (normalize_url u)).visited :=
      List.sublist_append_left _ _
    have hbase2 : st.visited.Sublist (logFetch (markVisited st (normalize_url u)) u).visited :=
      List.sublist_append_left _ _
    simp only [crawlAux]
    split
    · exact List.Sublist.refl _
    · split
      · exact hbase
      · split
        · exact hbase
        · split
          · exact hbase
          · split
            · exact hbase2
            · exact hbase2.trans
                (foldl_visited_sublist _ (linkStep_visited_sublist (crawlAux w n) ih u _) _ _)

/-- Claim C5: the visited set only ever grows (it is append-only, as
the Sublist conjunct states for every reachable configuration), and a
full crawl never holds more than 100 entries in it, 100 being the
fixed page budget of the code; so at every point of a crawl at most
100 URLs have ever been added, and the bound still holds at return. -/
theorem c5_visited_bounded (w : Web) (start_url : Str) :
    (crawl_state w start_url).visited.length ≤ 100 ∧
    (∀ (fuel : Nat) (u : Str) (st : CrawlState),
      st.visited.Sublist (crawlAux w fuel u st).visited) := by
  constructor
  · exact crawlAux_visited_le w crawlFuel start_url initState (by decide)
  · exact crawlAux_visited_sublist w

/-- Claim C1: the value returned by the crawl pipeline (the composition
of crawl_external_links and simplify_external_links performed by
update_links_db.py) is sorted, duplicate-free, and contains exactly the
base domains derivable from the external-link set accumulated during
the crawl. -/
theorem c1_crawl_result_sorted_unique_base_domains (w : Web) (start_url : Str) :
    List.Sorted strler (crawlPipeline w start_url) ∧
    (crawlPipeline w start_url).Nodup ∧
    (∀ d : Str, d ∈ crawlPipeline w start_url ↔
      ∃ u ∈ (crawl_state w start_url).externals, urlBaseDomain u = some d) := by
  refine ⟨simplify_sorted _, simplify_nodup _, fun d => ?_⟩
  unfold crawlPipeline crawl_external_links
  exact mem_simplify

/-- Modelled from the spec (4.3): classification of one href on a page,
relative to the crawl seed's base domain; some gives the canonical URL
of an internal link, none an external or discarded link. -/
def specClassify (seedBase page href : Str) : Option Str :=
  match pyUrljoin page href with
  | none => none
  | some absolute =>
    match pyUrlparse absolute with
    | none => none
    | some pu =>
      if (pu.scheme = strHttp ∨ pu.scheme = strHttps) ∧ pu.netloc ≠ [] then
        match get_base_domain pu.netloc with
        | none => none
        | some lbd =>
          if lbd ≠ [] ∧ lbd = seedBase then some (normalize_url absolute) else none
      else none

/-- Modelled from the spec (4.3): the internal links produced by
fetching one URL, in document order. -/
def specFetchInternal (w : Web) (seedBase : Str) (u : Str) : List Str :=
  match w u with
  | none => []
  | some resp => resp.hrefs.filterMap (specClassify seedBase u)

/-- Modelled from the spec (4.4 step 2c): merge the internal links
discovered by one batch into the visited set and the frontier, marking
visited before enqueueing and respecting the page budget. -/
def specAbsorb (maxPages : Nat) : (List Str × List Str) → List Str → (List Str × List Str)
  | vq, [] => vq
  | (visited, queue), l :: ls =>
    if l ∈ visited ∨ ¬(visited.length < maxPages) then
      specAbsorb maxPages (visited, queue) ls
    else specAbsorb maxPages (visited ++ [l], queue ++ [l]) ls

/-- Modelled from the spec (4.4, level-synchronous batched BFS): while
the frontier is nonempty and the page budget allows, dequeue a batch of
up to maxWorkers URLs, fetch them all (the batch barrier), then absorb
every internal link they discovered; returns the fetch order.  The
fuel argument only makes the loop structurally recursive; with fuel
above maxPages it never runs out, as each iteration fetches at least
one URL and at most maxPages URLs are ever enqueued. -/
def specCrawlLoop (w : Web) (seedBase : Str) (maxPages maxWorkers : Nat) :
    Nat → List Str → List Str → List Str → List Str
  | 0, _, _, trace => trace
  | Nat.succ fuel, visited, frontier, trace =>
    if frontier = [] ∨ ¬(visited.length ≤ maxPages) then trace
    else
      let batch := frontier.take maxWorkers
      let discovered := (batch.map (specFetchInternal w seedBase)).flatten
      let vq := specAbsorb maxPages (visited, frontier.drop maxWorkers) discovered
      specCrawlLoop w seedBase maxPages maxWorkers fuel vq.1 vq.2 (trace ++ batch)

/-- Modelled from the spec (4.4): the full level-synchronous scheduler,
returning the sequence of fetched URLs in fetch order. -/
def specCrawl (w : Web) (startUrl : Str) (maxPages maxWorkers : Nat) : List Str :=
  match pyUrlparse startUrl with
  | none => []
  | some sp =>
    match get_base_domain sp.netloc with
    | none => []
    | some seedBase =>
      if sp.netloc = [] ∨ seedBase = [] then []
      else
        specCrawlLoop w seedBase maxPages maxWorkers (maxPages + 1)
          [normalize_url startUrl] [normalize_url startUrl] []

/-- A four-page site: the seed links to pages a and b, page a links to
page c.  Used as counterexample for claim C2. -/
def c2web : Web := fun u =>
  if u = toStr (r"https://site.com/") then
    some ⟨toStr (r"text/html"),
          [toStr (r"https://site.com/a"), toStr (r"https://site.com/b")]⟩
  else if u = toStr (r"https://site.com/a") then
    some ⟨toStr (r"text/html"), [toStr (r"https://site.com/c")]⟩
  else if u = toStr (r"https://site.com/b") then some ⟨toStr (r"text/html"), []⟩
  else if u = toStr (r"https://site.com/c") then some ⟨toStr (r"text/html"), []⟩
  else none

/-- Claim C2, counterexample: the code fetches depth-first.  On c2web
its fetch order is seed, a, c, b: page c, discovered on page a, is
fetched before page b even though b was discovered by the seed's batch
and entered the FIFO frontier before c existed.  The spec's
level-synchronous scheduler (defaults maxPages 100, maxWorkers 5)
fetches seed, a, b, c. -/
theorem c2_counterexample :
    (crawl_state c2web (toStr (r"https://site.com/"))).trace =
      [toStr (r"https://site.com/"), toStr (r"https://site.com/a"),
       toStr (r"https://site.com/c"), toStr (r"https://site.com/b")] ∧
    specCrawl c2web (toStr (r"https://site.com/")) 100 5 =
      [toStr (r"https://site.com/"), toStr (r"https://site.com/a"),
       toStr (r"https://site.com/b"), toStr (r"https://site.com/c")] ∧
    (crawl_state c2web (toStr (r"https://site.com/"))).trace ≠
      specCrawl c2web (toStr (r"https://site.com/")) 100 5 :=
  ⟨by decide, by decide, by decide⟩

/-- The invariant behind at-most-once fetching: every URL fetched so
far is recorded in the visited set under its canonical form, and no
two fetched URLs share a canonical form. -/
def TraceInv (st : CrawlState) : Prop :=
  (∀ t ∈ st.trace, normalize_url t ∈ st.visited) ∧ (st.trace.map normalize_url).Nodup

theorem linkStep_traceInv (recurse : Str → CrawlState → CrawlState)
    (hrec : ∀ (u : Str) (st : CrawlState), TraceInv st → TraceInv (recurse u st)) :
    ∀ (page sbd : Str) (st : CrawlState) (href : Str),
      TraceInv st → TraceInv (linkStep recurse page sbd st href) := by
  intro page sbd st href h
  unfold linkStep
  repeat' split
  any_goals exact h
  exact hrec _ (logEvent st page _ sbd) h

theorem crawlAux_traceInv (w : Web) :
    ∀ (fuel : Nat) (u : Str) (st : CrawlState), TraceInv st → TraceInv (crawlAux w fuel u st) := by
  intro fuel
  induction fuel with
  | zero => intro u st h; exact h
  | succ n ih =>
    intro u st h
    simp only [crawlAux]
    split
    · exact h
    · rename_i hmem
      obtain ⟨h1, h2⟩ := h
      have hmark : TraceInv (markVisited st (normalize_url u)) :=
        ⟨fun t ht => List.mem_append_left _ (h1 t ht), h2⟩
      have hfetch : TraceInv (logFetch (markVisited st (normalize_url u)) u) := by
        constructor
        · intro t ht
          rcases List.mem_append.mp ht with ht1 | ht2
          · exact List.mem_append_left _ (h1 t ht1)
          · rw [List.mem_singleton.mp ht2]
            exact List.mem_append_right _ (List.mem_singleton.mpr rfl)
        · show (List.map normalize_url ((markVisited st (normalize_url u)).trace ++ [u])).Nodup
          rw [List.map_append]
          refine List.Nodup.append h2 (List.nodup_singleton _) ?_
          intro x hx1 hx2
          rw [List.map_singleton, List.mem_singleton] at hx2
          obtain ⟨t, ht, hnt⟩ := List.mem_map.mp hx1
          exact hmem (by rw [← hx2, ← hnt]; exact h1 t ht)
      split
      · exact hmark
      · split
        · exact hmark
        · split
          · exact hmark
          · split
            · exact hfetch
            · exact foldl_preserve _
                (fun st2 a h2 => linkStep_traceInv (crawlAux w n) ih u _ st2 a h2)
                _ _ hfetch

/-- Claim C2 (amended): pages are fetched one at a time by recursive
depth-first traversal, not in level-synchronous FIFO batches (see the
counterexample); what survives of the claim is at-most-once fetching:
every fetched URL is recorded in the visited set under its canonical
form before the fetch, a URL whose canonical form is already visited
is never fetched again, and consequently the fetch trace of a crawl
has no duplicates, even up to canonicalization. -/
theorem c2_fetch_at_most_once (w : Web) (start_url : Str) :
    ((crawl_state w start_url).trace.map normalize_url).Nodup ∧
    (crawl_state w start_url).trace.Nodup ∧
    (∀ t ∈ (crawl_state w start_url).trace,
      normalize_url t ∈ (crawl_state w start_url).visited) := by
  have h := crawlAux_traceInv w crawlFuel start_url initState
    ⟨fun t ht => absurd ht (List.not_mem_nil t), List.nodup_nil⟩
  obtain ⟨h1, h2⟩ := h
  exact ⟨h2, h2.of_map _, h1⟩

/-- Witness for the amended claim C2 at a concrete crawl. -/
theorem c2_witness :
    toStr (r"https://site.com/a") ∈ (crawl_state c2web (toStr (r"https://site.com/"))).trace ∧
    normalize_url (toStr (r"https://site.com/a")) ∈
      (crawl_state c2web (toStr (r"https://site.com/"))).visited :=
  ⟨by decide,
   (c2_fetch_at_most_once c2web (toStr (r"https://site.com/"))).2.2
     (toStr (r"https://site.com/a")) (by decide)⟩

/-- A two-page site whose seed host is spelled with upper case.  The
seed page links to a same-domain page (spelled EX.com); crawling that
page, the crawler recurses into the CANONICAL form ex.com/p, and on
that page a further link to EX.com/q is compared against the base
domain of ex.com/p, not of the seed.  Used as counterexample for
claim C3. -/
def c3web : Web := fun u =>
  if u = toStr (r"https://EX.com") then
    some ⟨toStr (r"text/html"), [toStr (r"https://EX.com/p")]⟩
  else if u = toStr (r"https://ex.com/p") then
    some ⟨toStr (r"text/html"), [toStr (r"https://EX.com/q")]⟩
  else none

/-- Claim C3, counterexample: on c3web the seed URL's base domain is
EX.com, and on the page fetched at depth 1 the link to
https://EX.com/q, whose base domain is exactly the seed's EX.com, is
nevertheless classified as EXTERNAL (the recorded event has external =
true), because the code compares against the base domain of the
current page's URL (lower-cased by normalization to ex.com), not the
seed's.  Under the claim that event would have external =
decide (EX.com different from EX.com) = false. -/
theorem c3_counterexample :
    urlBaseDomain (toStr (r"https://EX.com")) = some (toStr (r"EX.com")) ∧
    (⟨toStr (r"https://ex.com/p"), toStr (r"EX.com"), true⟩ : LinkEvent) ∈
      (crawl_state c3web (toStr (r"https://EX.com"))).events ∧
    decide (toStr (r"EX.com") ≠ toStr (r"EX.com")) = false :=
  ⟨by decide, by decide, by decide⟩

/-- The classification invariant: every recorded event compares the
link's base domain against the base domain derived from the URL of the
page carrying the link. -/
def EventsInv (st : CrawlState) : Prop :=
  ∀ ev ∈ st.events, ∃ b, urlBaseDomain ev.page = some b ∧
    ev.external = decide (ev.linkBase ≠ b)

theorem eventsInv_logEvent {st : CrawlState} {page lbd sbd : Str}
    (h : EventsInv st) (hpage : urlBaseDomain page = some sbd) :
    EventsInv (logEvent st page lbd sbd) := by
  intro ev hev
  rcases List.mem_append.mp hev with h1 | h2
  · exact h ev h1
  · rw [List.mem_singleton.mp h2]
    exact ⟨sbd, hpage, rfl⟩

theorem linkStep_eventsInv (recurse : Str → CrawlState → CrawlState)
    (hrec : ∀ (u : Str) (st : CrawlState), EventsInv st → EventsInv (recurse u st))
    (page sbd : Str) (hpage : urlBaseDomain page = some sbd) :
    ∀ (st : CrawlState) (href : Str),
      EventsInv st → EventsInv (linkStep recurse page sbd st href) := by
  intro st href h
  unfold linkStep
  repeat' split
  any_goals exact h
  any_goals exact eventsInv_logEvent h hpage
  exact hrec _ (logEvent st page _ sbd) (eventsInv_logEvent h hpage)

theorem crawlAux_eventsInv (w : Web) :
    ∀ (fuel : Nat) (u : Str) (st : CrawlState),
      EventsInv st → EventsInv (crawlAux w fuel u st) := by
  intro fuel
  induction fuel with
  | zero => intro u st h; exact h
  | succ n ih =>
    intro u st h
    simp only [crawlAux]
    split
    · exact h
    · split
      · exact h
      · split
        · exact h
        · split
          · exact h
          · rename_i x1 sp hsp x2 sbd hsbd hval
            split
            · exact h
            · have hn1 : ¬sp.netloc = [] := fun hc => hval (Or.inl hc)
              have hn2 : ¬sbd = [] := fun hc => hval (Or.inr hc)
              have hpage : urlBaseDomain u = some sbd := by
                rw [urlBaseDomain_some_eq hsp]
                unfold truthyBase
                rw [if_neg hn1, hsbd]
                show (if sbd = [] then none else some sbd) = some sbd
                rw [if_neg hn2]
              exact foldl_preserve _
                (fun st2 a h2 => linkStep_eventsInv (crawlAux w n) ih u sbd hpage st2 a h2)
                _ _ h

/-- Claim C3 (amended): each extracted link is classified as internal
exactly when its base domain equals the base domain derived from the
URL of the page on which the link was found (the current crawl call's
URL, which below the seed is the canonical, lower-cased form), not the
base domain of the original seed URL; the two coincide for all-lower-
case hosts but differ in general, as the counterexample shows. -/
theorem c3_classification_relative_to_current_page (w : Web) (start_url : Str) :
    ∀ ev ∈ (crawl_state w start_url).events,
      ∃ b, urlBaseDomain ev.page = some b ∧
        ev.external = decide (ev.linkBase ≠ b) := by
  exact crawlAux_eventsInv w crawlFuel start_url initState
    (fun ev hev => absurd hev (List.not_mem_nil ev))

/-- Witness for the amended claim C3 at a concrete crawl. -/
theorem c3_witness :
    ((⟨toStr (r"https://ex.com/p"), toStr (r"EX.com"), true⟩ : LinkEvent) ∈
      (crawl_state c3web (toStr (r"https://EX.com"))).events) ∧
    (∃ b, urlBaseDomain (toStr (r"https://ex.com/p")) = some b ∧
      true = decide (toStr (r"EX.com") ≠ b)) :=
  ⟨by decide,
   c3_classification_relative_to_current_page c3web (toStr (r"https://EX.com"))
     ⟨toStr (r"https://ex.com/p"), toStr (r"EX.com"), true⟩ (by decide)⟩

theorem char_toNat_ofNat {n : Nat} (h : n.isValidChar) : (Char.ofNat n).toNat = n := by
  unfold Char.ofNat
  rw [dif_pos h]
  rfl

theorem char_le_iff_toNat {a b : Char} : a ≤ b ↔ a.toNat ≤ b.toNat := Iff.rfl

theorem char_eq_iff_toNat {a b : Char} : a = b ↔ a.toNat = b.toNat := by
  constructor
  · intro h; rw [h]
  · intro h
    apply Char.eq_of_val_eq
    apply UInt32.eq_of_toBitVec_eq
    apply BitVec.eq_of_toNat_eq
    exact h

theorem toLower_eq_self {c : Char} (h : ¬(65 ≤ c.toNat ∧ c.toNat ≤ 90)) :
    Char.toLower c = c := by
  unfold Char.toLower
  simp only []
  rw [if_neg ?hc]
  case hc => simpa using h

theorem toNat_toLower_upper {c : Char} (h : 65 ≤ c.toNat ∧ c.toNat ≤ 90) :
    (Char.toLower c).toNat = c.toNat + 32 := by
  unfold Char.toLower
  simp only []
  rw [if_pos ?hc]
  · exact char_toNat_ofNat (Or.inl (by omega))
  case hc => exact ⟨h.1, h.2⟩

theorem toLower_idem (c : Char) : Char.toLower (Char.toLower c) = Char.toLower c := by
  by_cases h : 65 ≤ c.toNat ∧ c.toNat ≤ 90
  · have h2 := toNat_toLower_upper h
    apply toLower_eq_self
    omega
  · simp only [toLower_eq_self h]

theorem toLower_eq_of_not_lower {c d : Char} (hd : ¬(97 ≤ d.toNat ∧ d.toNat ≤ 122))
    (h : Char.toLower c = d) : c = d := by
  by_cases hu : 65 ≤ c.toNat ∧ c.toNat ≤ 90
  · have h2 := toNat_toLower_upper hu
    rw [h] at h2
    omega
  · rw [← h]
    exact (toLower_eq_self hu).symm

theorem lowerStr_idem (s : Str) : lowerStr (lowerStr s) = lowerStr s := by
  unfold lowerStr
  rw [List.map_map]
  exact List.map_congr_left (fun c _ => toLower_idem c)

theorem mem_lowerStr_special {s : Str} {d : Char}
    (hl : ¬(97 ≤ d.toNat ∧ d.toNat ≤ 122)) (hu : ¬(65 ≤ d.toNat ∧ d.toNat ≤ 90)) :
    d ∈ lowerStr s ↔ d ∈ s := by
  constructor
  · intro h
    obtain ⟨c, hc, hcd⟩ := List.mem_map.mp h
    rw [← toLower_eq_of_not_lower hl hcd]
    exact hc
  · intro h
    have : Char.toLower d = d := toLower_eq_self hu
    rw [← this]
    exact List.mem_map_of_mem Char.toLower h

theorem isDelimChar_iff {c : Char} :
    isDelimChar c = true ↔ c.toNat = 47 ∨ c.toNat = 63 ∨ c.toNat = 35 := by
  simp only [isDelimChar, Bool.or_eq_true, decide_eq_true_eq]
  rw [char_eq_iff_toNat, char_eq_iff_toNat, char_eq_iff_toNat,
    (by decide : ('/').toNat = 47), (by decide : ('?').toNat = 63),
    (by decide : ('#').toNat = 35)]
  all_goals omega

theorem isDelimChar_toLower (c : Char) : isDelimChar (Char.toLower c) = isDelimChar c := by
  by_cases h : 65 ≤ c.toNat ∧ c.toNat ≤ 90
  · have h2 := toNat_toLower_upper h
    have hc : isDelimChar c = false := by
      rw [← Bool.not_eq_true, isDelimChar_iff]
      omega
    have hc2 : isDelimChar (Char.toLower c) = false := by
      rw [← Bool.not_eq_true, isDelimChar_iff]
      omega
    rw [hc, hc2]
  · rw [toLower_eq_self h]

theorem isSchemeChar_iff {c : Char} :
    isSchemeChar c = true ↔
      (97 ≤ c.toNat ∧ c.toNat ≤ 122) ∨ (65 ≤ c.toNat ∧ c.toNat ≤ 90) ∨
      (48 ≤ c.toNat ∧ c.toNat ≤ 57) ∨ c.toNat = 43 ∨ c.toNat = 45 ∨ c.toNat = 46 := by
  simp only [isSchemeChar, Bool.or_eq_true, Bool.and_eq_true, decide_eq_true_eq]
  rw [char_le_iff_toNat, char_le_iff_toNat, char_le_iff_toNat, char_le_iff_toNat,
    char_le_iff_toNat, char_le_iff_toNat, char_eq_iff_toNat, char_eq_iff_toNat,
    char_eq_iff_toNat,
    (by decide : ('a').toNat = 97), (by decide : ('z').toNat = 122),
    (by decide : ('A').toNat = 65), (by decide : ('Z').toNat = 90),
    (by decide : ('0').toNat = 48), (by decide : ('9').toNat = 57),
    (by decide : ('+').toNat = 43), (by decide : ('-').toNat = 45),
    (by decide : ('.').toNat = 46)]
  omega

theorem isAsciiAlphaChar_iff {c : Char} :
    isAsciiAlphaChar c = true ↔
      (97 ≤ c.toNat ∧ c.toNat ≤ 122) ∨ (65 ≤ c.toNat ∧ c.toNat ≤ 90) := by
  simp only [isAsciiAlphaChar, Bool.or_eq_true, Bool.and_eq_true, decide_eq_true_eq]
  rw [char_le_iff_toNat, char_le_iff_toNat, char_le_iff_toNat, char_le_iff_toNat,
    (by decide : ('a').toNat = 97), (by decide : ('z').toNat = 122),
    (by decide : ('A').toNat = 65), (by decide : ('Z').toNat = 90)]

theorem isSchemeChar_toLower {c : Char} (h : isSchemeChar c = true) :
    isSchemeChar (Char.toLower c) = true := by
  by_cases hu : 65 ≤ c.toNat ∧ c.toNat ≤ 90
  · have h2 := toNat_toLower_upper hu
    rw [isSchemeChar_iff]
    omega
  · rw [toLower_eq_self hu]
    exact h

theorem isAsciiAlphaChar_toLower {c : Char} (h : isAsciiAlphaChar c = true) :
    isAsciiAlphaChar (Char.toLower c) = true := by
  by_cases hu : 65 ≤ c.toNat ∧ c.toNat ≤ 90
  · have h2 := toNat_toLower_upper hu
    rw [isAsciiAlphaChar_iff]
    omega
  · rw [toLower_eq_self hu]
    exact h

theorem colon_not_schemeChar : isSchemeChar ':' = false := by decide

theorem not_colon_mem_of_all_scheme {s : Str} (h : s.all isSchemeChar = true) : ':' ∉ s := by
  intro hc
  have := List.all_eq_true.mp h ':' hc
  exact absurd this (by decide)

theorem lowerStr_all_scheme {s : Str} (h : s.all isSchemeChar = true) :
    (lowerStr s).all isSchemeChar = true := by
  rw [lowerStr, List.all_map]
  rw [List.all_eq_true] at h ⊢
  intro c hc
  exact isSchemeChar_toLower (h c hc)

theorem contains_lowerStr_bracket (s : Str) (d : Char)
    (hl : ¬(97 ≤ d.toNat ∧ d.toNat ≤ 122)) (hu : ¬(65 ≤ d.toNat ∧ d.toNat ≤ 90)) :
    (lowerStr s).contains d = s.contains d := by
  have h1 : (lowerStr s).contains d = decide (d ∈ lowerStr s) := by
    show List.elem d (lowerStr s) = _
    rw [List.elem_eq_mem]
  have h2 : s.contains d = decide (d ∈ s) := by
    show List.elem d s = _
    rw [List.elem_eq_mem]
  have hiff : d ∈ lowerStr s ↔ d ∈ s := mem_lowerStr_special hl hu
  rw [h1, h2]
  by_cases h : d ∈ s
  · simp [hiff, h]
  · simp [hiff, h]

theorem bracketBad_lowerStr (s : Str) : bracketBad (lowerStr s) = bracketBad s := by
  unfold bracketBad
  rw [contains_lowerStr_bracket s '[' (by decide) (by decide),
    contains_lowerStr_bracket s ']' (by decide) (by decide)]

theorem splitAtFirst_some_of_mem {c : Char} :
    ∀ {s : Str}, c ∈ s → ∃ p, splitAtFirst c s = some p := by
  intro s
  induction s with
  | nil => intro h; cases h
  | cons a rest ih =>
    intro h
    by_cases hac : a = c
    · exact ⟨([], rest), by rw [splitAtFirst, if_pos hac]⟩
    · have hm : c ∈ rest := by
        rcases List.mem_cons.mp h with he | hm
        · exact absurd he.symm hac
        · exact hm
      obtain ⟨⟨l, r⟩, hp⟩ := ih hm
      exact ⟨(a :: l, r), by rw [splitAtFirst, if_neg hac, hp]⟩

theorem not_mem_of_splitAtFirst_none {c : Char} {s : Str}
    (h : splitAtFirst c s = none) : c ∉ s := by
  intro hm
  obtain ⟨p, hp⟩ := splitAtFirst_some_of_mem hm
  rw [hp] at h
  cases h

theorem splitScheme_none_of_no_colon {s : Str} (h : ':' ∉ s) : splitScheme s = ([], s) := by
  unfold splitScheme
  rw [splitAtFirst_none h]

theorem splitScheme_of_good {rest : Str} {c : Char} {cs : Str}
    (halpha : isAsciiAlphaChar c = true) (hall : (c :: cs).all isSchemeChar = true) :
    splitScheme ((c :: cs) ++ ':' :: rest) = (lowerStr (c :: cs), rest) := by
  unfold splitScheme
  rw [splitAtFirst_append rest (not_colon_mem_of_all_scheme hall)]
  simp [halpha, hall]

theorem splitScheme_none_of_head_not_alpha {x : Char} {xs : Str}
    (h : isAsciiAlphaChar x = false) : splitScheme (x :: xs) = ([], x :: xs) := by
  unfold splitScheme
  cases hsp : splitAtFirst ':' (x :: xs) with
  | none => rfl
  | some p =>
    obtain ⟨a, b⟩ := p
    obtain ⟨heq, hnc⟩ := splitAtFirst_some hsp
    cases a with
    | nil => rfl
    | cons y ys =>
      have hxy : x = y := by
        rw [List.cons_append] at heq
        exact (List.cons_eq_cons.mp heq).1
      simp [← hxy, h]

theorem splitScheme_split_inv {t sch rest : Str} (h : splitScheme t = (sch, rest))
    (hne : sch ≠ []) :
    ∃ c cs, t = (c :: cs) ++ ':' :: rest ∧ sch = lowerStr (c :: cs) ∧
      isAsciiAlphaChar c = true ∧ (c :: cs).all isSchemeChar = true := by
  unfold splitScheme at h
  cases hsp : splitAtFirst ':' t with
  | none =>
    rw [hsp] at h
    exact absurd (congrArg Prod.fst h).symm hne
  | some p =>
    rw [hsp] at h
    obtain ⟨a, b⟩ := p
    obtain ⟨heq, hnc⟩ := splitAtFirst_some hsp
    cases a with
    | nil => exact absurd (congrArg Prod.fst h).symm hne
    | cons y ys =>
      have h0 : (if (isAsciiAlphaChar y && (y :: ys).all isSchemeChar) = true
          then (lowerStr (y :: ys), b) else (([] : Str), t)) = (sch, rest) := h
      by_cases hcond : (isAsciiAlphaChar y && (y :: ys).all isSchemeChar) = true
      · rw [if_pos hcond] at h0
        obtain ⟨h1, h2⟩ := (Bool.and_eq_true _ _).mp hcond
        have hfst : sch = lowerStr (y :: ys) := (congrArg Prod.fst h0).symm
        have hsnd : rest = b := (congrArg Prod.snd h0).symm
        refine ⟨y, ys, ?_, hfst, h1, h2⟩
        rw [heq, hsnd]
      · rw [if_neg hcond] at h0
        exact absurd (congrArg Prod.fst h0).symm hne

theorem takeUntilDelims_append {nl rest : Str}
    (h1 : ∀ c ∈ nl, isDelimChar c = false)
    (h2 : rest = [] ∨ ∃ d t, rest = d :: t ∧ isDelimChar d = true) :
    takeUntilDelims (nl ++ rest) = (nl, rest) := by
  induction nl with
  | nil =>
    rcases h2 with rfl | ⟨d, t, rfl, hd⟩
    · rfl
    · simp [takeUntilDelims, hd]
  | cons a as ih =>
    have ha : isDelimChar a = false := h1 a (List.mem_cons_self a as)
    have ih2 := ih (fun c hc => h1 c (List.mem_cons_of_mem a hc))
    rw [List.cons_append]
    simp only [takeUntilDelims, ha, Bool.false_eq_true, if_false, ih2]

/-- The fragment-splitting stage of urlsplitCore, factored for proofs. -/
def fragSplit (X : Str) : Str × Str :=
  match splitAtFirst '#' X with
  | some p => p
  | none => (X, [])

/-- The query-splitting stage of urlsplitCore, factored for proofs. -/
def querySplit (X : Str) : Str × Str :=
  match splitAtFirst '?' X with
  | some p => p
  | none => (X, [])

/-- The netloc-splitting stage of urlsplitCore, factored for proofs. -/
def netlocSplit (rest : Str) : Str × Str :=
  if rest.take 2 = ['/', '/'] then takeUntilDelims (rest.drop 2)
  else ([], rest)

theorem urlsplitCore_decomp (dflt url : Str) :
    urlsplitCore dflt url =
      ⟨(if (splitScheme url).1 = [] then dflt else (splitScheme url).1),
       (netlocSplit (splitScheme url).2).1,
       (querySplit (fragSplit (netlocSplit (splitScheme url).2).2).1).1,
       (querySplit (fragSplit (netlocSplit (splitScheme url).2).2).1).2,
       (fragSplit (netlocSplit (splitScheme url).2).2).2⟩ := rfl

theorem fragSplit_front (X : Str) :
    ∃ t, X = (fragSplit X).1 ++ t ∧ '#' ∉ (fragSplit X).1 := by
  unfold fragSplit
  cases hf : splitAtFirst '#' X with
  | none => exact ⟨[], by simp, not_mem_of_splitAtFirst_none hf⟩
  | some p =>
    obtain ⟨l, r⟩ := p
    obtain ⟨heq, hnm⟩ := splitAtFirst_some hf
    exact ⟨'#' :: r, heq, hnm⟩

theorem querySplit_front (X : Str) :
    ∃ t, X = (querySplit X).1 ++ t ∧ '?' ∉ (querySplit X).1 := by
  unfold querySplit
  cases hf : splitAtFirst '?' X with
  | none => exact ⟨[], by simp, not_mem_of_splitAtFirst_none hf⟩
  | some p =>
    obtain ⟨l, r⟩ := p
    obtain ⟨heq, hnm⟩ := splitAtFirst_some hf
    exact ⟨'?' :: r, heq, hnm⟩

theorem fragSplit_none {X : Str} (h : '#' ∉ X) : fragSplit X = (X, []) := by
  unfold fragSplit
  rw [splitAtFirst_none h]

theorem querySplit_none {X : Str} (h : '?' ∉ X) : querySplit X = (X, []) := by
  unfold querySplit
  rw [splitAtFirst_none h]

theorem querySplit_append {upath q : Str} (h : '?' ∉ upath) :
    querySplit (upath ++ '?' :: q) = (upath, q) := by
  unfold querySplit
  rw [splitAtFirst_append q h]

theorem pq_front (X : Str) : ∃ t, X = (querySplit (fragSplit X).1).1 ++ t := by
  obtain ⟨t1, ht1, _⟩ := querySplit_front (fragSplit X).1
  obtain ⟨t2, ht2, _⟩ := fragSplit_front X
  refine ⟨t1 ++ t2, ?_⟩
  conv_lhs => rw [ht2, ht1]
  rw [List.append_assoc]

theorem pq_no_hash (X : Str) : '#' ∉ (querySplit (fragSplit X).1).1 := by
  intro hmem
  obtain ⟨t, ht, _⟩ := querySplit_front (fragSplit X).1
  obtain ⟨t2, _, hnh⟩ := fragSplit_front X
  apply hnh
  rw [ht]
  exact List.mem_append_left t hmem

theorem pq_no_query (X : Str) : '?' ∉ (querySplit (fragSplit X).1).1 :=
  (querySplit_front (fragSplit X).1).choose_spec.2

theorem pq_query_no_hash (X : Str) : '#' ∉ (querySplit (fragSplit X).1).2 := by
  intro hmem
  obtain ⟨t2, _, hnh⟩ := fragSplit_front X
  apply hnh
  unfold querySplit at hmem
  cases hf : splitAtFirst '?' (fragSplit X).1 with
  | none =>
    rw [hf] at hmem
    simp at hmem
  | some p =>
    obtain ⟨l, r⟩ := p
    rw [hf] at hmem
    obtain ⟨heq, _⟩ := splitAtFirst_some hf
    rw [heq]
    have hr : '#' ∈ r := hmem
    exact List.mem_append_right l (List.mem_cons_of_mem '?' hr)

theorem urlsplitCore_path_no_hash (dflt url : Str) :
    '#' ∉ (urlsplitCore dflt url).path := by
  rw [urlsplitCore_decomp]
  exact pq_no_hash (netlocSplit (splitScheme url).2).2

theorem urlsplitCore_path_no_query (dflt url : Str) :
    '?' ∉ (urlsplitCore dflt url).path := by
  rw [urlsplitCore_decomp]
  exact pq_no_query (netlocSplit (splitScheme url).2).2

theorem urlsplitCore_query_no_hash (dflt url : Str) :
    '#' ∉ (urlsplitCore dflt url).query := by
  rw [urlsplitCore_decomp]
  exact pq_query_no_hash (netlocSplit (splitScheme url).2).2

theorem takeUntilDelims_snd_shape (s : Str) :
    (takeUntilDelims s).2 = [] ∨
      ∃ d t, (takeUntilDelims s).2 = d :: t ∧ isDelimChar d = true := by
  induction s with
  | nil => left; rfl
  | cons a rest ih =>
    by_cases hd : isDelimChar a = true
    · right
      exact ⟨a, rest, by simp [takeUntilDelims, hd], hd⟩
    · simpa [takeUntilDelims, hd] using ih

theorem urlsplitCore_path_head_of_branch (dflt url : Str)
    (hbranch : (splitScheme url).2.take 2 = ['/', '/']) :
    (urlsplitCore dflt url).path = [] ∨
      ∃ t, (urlsplitCore dflt url).path = '/' :: t := by
  have hX : (netlocSplit (splitScheme url).2).2 = [] ∨
      ∃ d t, (netlocSplit (splitScheme url).2).2 = d :: t ∧ isDelimChar d = true := by
    rw [netlocSplit, if_pos hbranch]
    exact takeUntilDelims_snd_shape _
  obtain ⟨t, ht⟩ := pq_front (netlocSplit (splitScheme url).2).2
  have hpath : (urlsplitCore dflt url).path =
      (querySplit (fragSplit (netlocSplit (splitScheme url).2).2).1).1 := by
    rw [urlsplitCore_decomp]
  cases hp : (querySplit (fragSplit (netlocSplit (splitScheme url).2).2).1).1 with
  | nil => left; rw [hpath, hp]
  | cons a as =>
    right
    refine ⟨as, ?_⟩
    rw [hpath, hp]
    rw [hp] at ht
    rcases hX with hnil | ⟨d, t2, hdt, hdelim⟩
    · rw [hnil] at ht
      exact absurd ht.symm (by simp)
    · rw [hdt, List.cons_append] at ht
      have hda : d = a := (List.cons_eq_cons.mp ht).1
      have hnh := urlsplitCore_path_no_hash dflt url
      have hnq := urlsplitCore_path_no_query dflt url
      rw [hpath, hp] at hnh hnq
      have hmem : a ∈ a :: as := List.mem_cons_self a as
      have h1 : a ≠ '#' := fun he => hnh (he ▸ hmem)
      have h2 : a ≠ '?' := fun he => hnq (he ▸ hmem)
      rw [hda] at hdelim
      rcases isDelimChar_iff.mp hdelim with h3 | h3 | h3
      · have : a = '/' := char_eq_iff_toNat.mpr (by rw [h3]; decide)
        rw [this]
      · exact absurd (char_eq_iff_toNat.mpr (by rw [h3]; decide)) h2
      · exact absurd (char_eq_iff_toNat.mpr (by rw [h3]; decide)) h1

theorem urlsplitCore_path_head (dflt url : Str)
    (h : (urlsplitCore dflt url).netloc ≠ []) :
    (urlsplitCore dflt url).path = [] ∨
      ∃ t, (urlsplitCore dflt url).path = '/' :: t := by
  have hbranch : (splitScheme url).2.take 2 = ['/', '/'] := by
    by_contra hne
    apply h
    rw [urlsplitCore_decomp]
    show (netlocSplit (splitScheme url).2).1 = []
    rw [netlocSplit, if_neg hne]
  exact urlsplitCore_path_head_of_branch dflt url hbranch

theorem splitScheme_fst_nil {t : Str} (h : (splitScheme t).1 = []) :
    splitScheme t = ([], t) := by
  unfold splitScheme at h ⊢
  cases hsp : splitAtFirst ':' t with
  | none => rfl
  | some p =>
    obtain ⟨a, b⟩ := p
    rw [hsp] at h
    cases a with
    | nil => rfl
    | cons y ys =>
      by_cases hcond : (isAsciiAlphaChar y && (y :: ys).all isSchemeChar) = true
      · exfalso
        have h2 : (if (isAsciiAlphaChar y && (y :: ys).all isSchemeChar) = true
            then (lowerStr (y :: ys), b) else (([] : Str), t)).1 = [] := h
        rw [if_pos hcond] at h2
        simp [lowerStr] at h2
      · show (if (isAsciiAlphaChar y && (y :: ys).all isSchemeChar) = true
            then (lowerStr (y :: ys), b) else (([] : Str), t)) = ([], t)
        rw [if_neg hcond]

theorem urlsplitCore_scheme_shape (url : Str) :
    (urlsplitCore [] url).scheme = [] ∨
      ∃ c cs, (urlsplitCore [] url).scheme = c :: cs ∧ isAsciiAlphaChar c = true ∧
        (c :: cs).all isSchemeChar = true := by
  by_cases h : (splitScheme url).1 = []
  · left
    rw [urlsplitCore_decomp]
    show (if (splitScheme url).1 = [] then ([] : Str) else (splitScheme url).1) = []
    rw [if_pos h]
  · right
    have hpair : splitScheme url = ((splitScheme url).1, (splitScheme url).2) := rfl
    obtain ⟨c, cs, hurl, hsch, halpha, hall⟩ := splitScheme_split_inv hpair h
    have hs : (urlsplitCore [] url).scheme = lowerStr (c :: cs) := by
      rw [urlsplitCore_decomp]
      show (if (splitScheme url).1 = [] then ([] : Str) else (splitScheme url).1) = _
      rw [if_neg h, hsch]
    refine ⟨Char.toLower c, lowerStr cs, ?_, isAsciiAlphaChar_toLower halpha, ?_⟩
    · rw [hs]; rfl
    · exact lowerStr_all_scheme hall

theorem urlsplitCore_scheme_lower (url : Str) :
    lowerStr (urlsplitCore [] url).scheme = (urlsplitCore [] url).scheme := by
  by_cases h : (splitScheme url).1 = []
  · have hs : (urlsplitCore [] url).scheme = [] := by
      rw [urlsplitCore_decomp]
      show (if (splitScheme url).1 = [] then ([] : Str) else (splitScheme url).1) = []
      rw [if_pos h]
    rw [hs]; rfl
  · have hpair : splitScheme url = ((splitScheme url).1, (splitScheme url).2) := rfl
    obtain ⟨c, cs, hurl, hsch, halpha, hall⟩ := splitScheme_split_inv hpair h
    have hs : (urlsplitCore [] url).scheme = lowerStr (c :: cs) := by
      rw [urlsplitCore_decomp]
      show (if (splitScheme url).1 = [] then ([] : Str) else (splitScheme url).1) = _
      rw [if_neg h, hsch]
    rw [hs]
    exact lowerStr_idem _

theorem urlsplitCore_scheme_nil {url : Str}
    (h : (urlsplitCore [] url).scheme = []) : splitScheme url = ([], url) := by
  apply splitScheme_fst_nil
  by_contra hne
  have hs : (urlsplitCore [] url).scheme = (splitScheme url).1 := by
    rw [urlsplitCore_decomp]
    show (if (splitScheme url).1 = [] then ([] : Str) else (splitScheme url).1) = _
    rw [if_neg hne]
  rw [hs] at h
  exact hne h

theorem pyUrlsplitD_bracket {dflt url : Str} {s : SplitResult}
    (h : pyUrlsplitD dflt url = some s) : bracketBad s.netloc = false := by
  unfold pyUrlsplitD at h
  split at h
  · cases h
  · rename_i hb
    obtain rfl := Option.some.inj h
    cases hbb : bracketBad (urlsplitCore dflt url).netloc with
    | false => rfl
    | true => exact absurd hbb hb

/-- Python's  x or y  fallback on the stripped path:  path.rstrip('/') or '/'. -/
def orSlash (s : Str) : Str := if s = [] then ['/'] else s

theorem normalize_url_orSlash {u : Str} {p : ParseResult} (h : pyUrlparse u = some p) :
    normalize_url u =
      pyUrlunparse
        ⟨lowerStr p.scheme, lowerStr p.netloc, orSlash (rstripSlash p.path),
         p.params, p.query, []⟩ :=
  normalize_url_some h

theorem rstripSlash_decomp (s : Str) :
    ∃ t, s = rstripSlash s ++ t ∧ ∀ c ∈ t, c = '/' := by
  refine ⟨(s.reverse.takeWhile (fun c => c = '/')).reverse, ?_, ?_⟩
  · unfold rstripSlash
    rw [← List.reverse_append, List.takeWhile_append_dropWhile, List.reverse_reverse]
  · intro c hc
    rw [List.mem_reverse] at hc
    have hp := @List.mem_takeWhile_imp Char (fun c => decide (c = '/')) s.reverse c hc
    exact of_decide_eq_true hp

theorem rstripSlash_last (s : Str) :
    rstripSlash s = [] ∨ ∃ front y, rstripSlash s = front ++ [y] ∧ y ≠ '/' := by
  unfold rstripSlash
  cases hd : s.reverse.dropWhile (fun c => c = '/') with
  | nil => left; rfl
  | cons y ys =>
    right
    refine ⟨ys.reverse, y, by rw [List.reverse_cons], ?_⟩
    have hhead := List.head?_dropWhile_not (fun c => c = '/') s.reverse
    rw [hd] at hhead
    simpa using hhead

theorem rstripSlash_no_trailing {front : Str} {y : Char} (hy : y ≠ '/') :
    rstripSlash (front ++ [y]) = front ++ [y] := by
  unfold rstripSlash
  rw [List.reverse_append]
  show ((y :: front.reverse).dropWhile (fun c => c = '/')).reverse = front ++ [y]
  rw [List.dropWhile_cons_of_neg (by simpa using hy), List.reverse_cons,
    List.reverse_reverse]

theorem orSlash_ne_nil (s : Str) : orSlash s ≠ [] := by
  unfold orSlash
  split
  · simp
  · rename_i h; exact h

theorem orSlash_rstrip_shape (path : Str) :
    orSlash (rstripSlash path) = ['/'] ∨
      ∃ front y, orSlash (rstripSlash path) = front ++ [y] ∧ y ≠ '/' := by
  rcases rstripSlash_last path with h | ⟨front, y, h, hy⟩
  · left; rw [orSlash, if_pos h]
  · right
    have hne : rstripSlash path ≠ [] := by rw [h]; simp
    exact ⟨front, y, by rw [orSlash, if_neg hne]; exact h, hy⟩

theorem orSlash_rstrip_stable {p : Str}
    (h : p = ['/'] ∨ ∃ front y, p = front ++ [y] ∧ y ≠ '/') :
    orSlash (rstripSlash p) = p := by
  rcases h with rfl | ⟨front, y, rfl, hy⟩
  · rfl
  · rw [rstripSlash_no_trailing hy, orSlash, if_neg (by simp)]

theorem mem_orSlash_rstrip {p : Str} {c : Char} (hc : c ≠ '/') (h : c ∉ p) :
    c ∉ orSlash (rstripSlash p) := by
  intro hmem
  rw [orSlash] at hmem
  by_cases hnil : rstripSlash p = []
  · rw [if_pos hnil] at hmem
    exact hc (List.mem_singleton.mp hmem)
  · rw [if_neg hnil] at hmem
    obtain ⟨t, ht, _⟩ := rstripSlash_decomp p
    apply h
    rw [ht]
    exact List.mem_append_left t hmem

theorem orSlash_rstrip_take_one {p : Str} (h : p = [] ∨ ∃ t, p = '/' :: t) :
    (orSlash (rstripSlash p)).take 1 = ['/'] := by
  rcases h with rfl | ⟨t, rfl⟩
  · rfl
  · by_cases hnil : rstripSlash ('/' :: t) = []
    · rw [orSlash, if_pos hnil]
      rfl
    · rw [orSlash, if_neg hnil]
      obtain ⟨s, hs, _⟩ := rstripSlash_decomp ('/' :: t)
      cases hr : rstripSlash ('/' :: t) with
      | nil => exact absurd hr hnil
      | cons a as =>
        rw [hr, List.cons_append] at hs
        have ha : a = '/' := ((List.cons_eq_cons.mp hs).1).symm
        rw [ha]
        rfl

theorem orSlash_rstrip_take_two {p : Str} (h : p.take 2 ≠ ['/', '/']) :
    (orSlash (rstripSlash p)).take 2 ≠ ['/', '/'] := by
  obtain ⟨t, hdec, _⟩ := rstripSlash_decomp p
  rw [orSlash]
  by_cases hnil : rstripSlash p = []
  · rw [if_pos hnil]
    intro hc
    have := congrArg List.length hc
    simp at this
  · rw [if_neg hnil]
    cases hr : rstripSlash p with
    | nil => exact absurd hr hnil
    | cons a as =>
      cases as with
      | nil =>
        intro hc
        have := congrArg List.length hc
        simp at this
      | cons b bs =>
        rw [hr] at hdec
        intro hc
        apply h
        rw [hdec]
        exact hc

theorem head_slash_of_take_one {pp : Str} (h : pp.take 1 = ['/']) :
    ∃ t, pp = '/' :: t := by
  cases pp with
  | nil => simp at h
  | cons a as =>
    have ha : a = '/' := (List.cons_eq_cons.mp h).1
    exact ⟨as, by rw [ha]⟩

/-- A string admits no scheme split: no decomposition a ++ ':' ++ b with a
nonempty well-formed scheme prefix part. -/
def NoSchemeColon (s : Str) : Prop :=
  ∀ a b, s = a ++ ':' :: b →
    ¬∃ c cs, a = c :: cs ∧ isAsciiAlphaChar c = true ∧
      (c :: cs).all isSchemeChar = true

theorem noSchemeColon_slash : NoSchemeColon ['/'] := by
  intro a b heq
  rintro ⟨c, cs, rfl, -, -⟩
  rw [List.cons_append] at heq
  have h2 := (List.cons_eq_cons.mp heq).2
  exact absurd h2.symm (by simp)

theorem noSchemeColon_of_head_slash {t : Str} : NoSchemeColon ('/' :: t) := by
  intro a b heq
  rintro ⟨c, cs, rfl, halpha, -⟩
  rw [List.cons_append] at heq
  have hc : '/' = c := (List.cons_eq_cons.mp heq).1
  rw [← hc] at halpha
  exact absurd halpha (by decide)

theorem noSchemeColon_of_front {u pp : Str} (hu : splitScheme u = ([], u))
    (hfront : ∃ t, u = pp ++ t) : NoSchemeColon pp := by
  intro a b heq
  rintro ⟨c, cs, rfl, halpha, hall⟩
  obtain ⟨t, ht⟩ := hfront
  have hudecomp : u = (c :: cs) ++ ':' :: (b ++ t) := by
    rw [ht, heq]
    simp [List.append_assoc]
  have h2 : splitScheme u = (lowerStr (c :: cs), b ++ t) := by
    rw [hudecomp]
    exact splitScheme_of_good halpha hall
  rw [hu] at h2
  have h3 : ([] : Str) = lowerStr (c :: cs) := congrArg Prod.fst h2
  simp [lowerStr] at h3

theorem splitScheme_none_of_noSchemeColon {pp qExt : Str}
    (hns : NoSchemeColon pp) (hq : qExt = [] ∨ ∃ t, qExt = '?' :: t) :
    splitScheme (pp ++ qExt) = ([], pp ++ qExt) := by
  by_cases h : (splitScheme (pp ++ qExt)).1 = []
  · exact splitScheme_fst_nil h
  · exfalso
    have hpair : splitScheme (pp ++ qExt) =
        ((splitScheme (pp ++ qExt)).1, (splitScheme (pp ++ qExt)).2) := rfl
    obtain ⟨c, cs, heq, hsch, halpha, hall⟩ := splitScheme_split_inv hpair h
    rcases List.append_eq_append_iff.mp heq with ⟨a', ha1, ha2⟩ | ⟨c', hc1, hc2⟩
    · -- the recognised scheme extends past pp into qExt
      cases a' with
      | nil =>
        rw [List.append_nil] at ha1
        rcases hq with rfl | ⟨t, rfl⟩
        · exact absurd ha2.symm (by simp)
        · have := (List.cons_eq_cons.mp ha2.symm).1
          exact absurd this (by decide)
      | cons z zs =>
        have hz : z ∈ c :: cs := by
          rw [ha1]
          exact List.mem_append_right pp (List.mem_cons_self z zs)
        rcases hq with rfl | ⟨t, rfl⟩
        · exact absurd ha2.symm (by simp)
        · have hz2 : z = '?' := ((List.cons_eq_cons.mp ha2).1).symm
          have := List.all_eq_true.mp hall z hz
          rw [hz2] at this
          exact absurd this (by decide)
    · -- the colon sits inside pp
      cases c' with
      | nil =>
        rw [List.append_nil] at hc1
        rcases hq with rfl | ⟨t, rfl⟩
        · exact absurd hc2.symm (by simp)
        · have := (List.cons_eq_cons.mp hc2.symm).1
          exact absurd this (by decide)
      | cons z zs =>
        have hz : z = ':' := ((List.cons_eq_cons.mp hc2).1).symm
        rw [hz] at hc1
        exact hns (c :: cs) zs hc1 ⟨c, cs, rfl, halpha, hall⟩

/-- The leading-slash insertion of pyUrlunsplit, factored for proofs. -/
def slashPrep (pp : Str) : Str :=
  if pp ≠ [] ∧ pp.take 1 ≠ ['/'] then '/' :: pp else pp

/-- The netloc condition of pyUrlunsplit, factored for proofs. -/
def unsplitUsesNetloc (sch nl pp : Str) : Prop :=
  nl ≠ [] ∨ (sch ≠ [] ∧ sch ∈ uses_netloc ∧ pp.take 2 ≠ ['/', '/'])

instance (sch nl pp : Str) : Decidable (unsplitUsesNetloc sch nl pp) := by
  unfold unsplitUsesNetloc
  infer_instance

/-- The path as it reappears after a urlunsplit/urlsplit round trip. -/
def unsplitPath (sch nl pp : Str) : Str :=
  if unsplitUsesNetloc sch nl pp then slashPrep pp else pp

/-- The scheme-less body assembled by pyUrlunsplit. -/
def unsplitBody (sch nl pp : Str) : Str :=
  if unsplitUsesNetloc sch nl pp then '/' :: '/' :: (nl ++ slashPrep pp) else pp

theorem slashPrep_head {pp : Str} (h : pp ≠ []) : ∃ t, slashPrep pp = '/' :: t := by
  unfold slashPrep
  by_cases hc : pp ≠ [] ∧ pp.take 1 ≠ ['/']
  · rw [if_pos hc]
    exact ⟨pp, rfl⟩
  · rw [if_neg hc]
    have h1 : pp.take 1 = ['/'] := by
      by_contra hne
      exact hc ⟨h, hne⟩
    exact head_slash_of_take_one h1

theorem slashPrep_eq_self {pp : Str} (h : pp.take 1 = ['/']) : slashPrep pp = pp := by
  rw [slashPrep, if_neg]
  rintro ⟨-, h2⟩
  exact h2 h

theorem mem_slashPrep {c : Char} {pp : Str} (h : c ∈ slashPrep pp) :
    c = '/' ∨ c ∈ pp := by
  unfold slashPrep at h
  split at h
  · rcases List.mem_cons.mp h with rfl | h2
    · exact Or.inl rfl
    · exact Or.inr h2
  · exact Or.inr h

theorem mem_unsplitPath {c : Char} {sch nl pp : Str} (h : c ∈ unsplitPath sch nl pp) :
    c = '/' ∨ c ∈ pp := by
  unfold unsplitPath at h
  split at h
  · exact mem_slashPrep h
  · exact Or.inr h

theorem pyUrlunsplit_eq (sch nl pp q fr : Str) :
    pyUrlunsplit sch nl pp q fr =
      ((if sch ≠ [] then sch ++ ':' :: unsplitBody sch nl pp else unsplitBody sch nl pp) ++
        (if q ≠ [] then '?' :: q else []) ++ (if fr ≠ [] then '#' :: fr else [])) := by
  unfold pyUrlunsplit unsplitBody unsplitUsesNetloc slashPrep
  by_cases h1 : nl ≠ [] ∨ (sch ≠ [] ∧ sch ∈ uses_netloc ∧ pp.take 2 ≠ ['/', '/']) <;>
    by_cases h2 : sch ≠ [] <;> by_cases h3 : q ≠ [] <;> by_cases h4 : fr ≠ [] <;>
      simp [h1, h2, h3, h4, List.append_assoc]

theorem take_two_append_ne {pp qExt : Str} (hpp : pp ≠ [])
    (h : pp.take 2 ≠ ['/', '/'])
    (hq : qExt = [] ∨ ∃ t, qExt = '?' :: t) :
    (pp ++ qExt).take 2 ≠ ['/', '/'] := by
  cases pp with
  | nil => exact absurd rfl hpp
  | cons a as =>
    cases as with
    | nil =>
      rcases hq with rfl | ⟨t, rfl⟩
      · rw [List.append_nil]
        exact h
      · intro hc
        have hc2 : ([a, '?'] : Str) = ['/', '/'] := hc
        have := (List.cons_eq_cons.mp (List.cons_eq_cons.mp hc2).2).1
        exact absurd this (by decide)
    | cons b bs =>
      intro hc
      exact h hc

theorem urlsplitCore_unsplit {sch nl pp q : Str}
    (hsch : sch = [] ∨ ∃ c cs, sch = c :: cs ∧ isAsciiAlphaChar c = true ∧
      (c :: cs).all isSchemeChar = true)
    (hlow : lowerStr sch = sch)
    (hnl : ∀ c ∈ nl, isDelimChar c = false)
    (hpp : pp ≠ []) (hph : '#' ∉ pp) (hpq : '?' ∉ pp) (hqh : '#' ∉ q)
    (hsl : nl ≠ [] → pp.take 1 = ['/'])
    (hsl2 : nl = [] → pp.take 2 ≠ ['/', '/'])
    (hns : sch = [] → nl = [] → NoSchemeColon pp) :
    urlsplitCore [] (pyUrlunsplit sch nl pp q []) =
      ⟨sch, nl, unsplitPath sch nl pp, q, []⟩ := by
  have hqext : ((if q ≠ [] then '?' :: q else []) = [] ∧ q = []) ∨
      (if q ≠ [] then '?' :: q else []) = '?' :: q := by
    by_cases hq : q = []
    · left
      rw [if_neg (by simpa using hq)]
      exact ⟨rfl, hq⟩
    · right
      rw [if_pos hq]
  have hqshape : (if q ≠ [] then '?' :: q else []) = [] ∨
      ∃ t, (if q ≠ [] then '?' :: q else []) = '?' :: t := by
    rcases hqext with ⟨h1, -⟩ | h1
    · exact Or.inl h1
    · exact Or.inr ⟨q, h1⟩
  have hb : pyUrlunsplit sch nl pp q [] =
      (if sch ≠ [] then sch ++ ':' :: unsplitBody sch nl pp else unsplitBody sch nl pp) ++
        (if q ≠ [] then '?' :: q else []) := by
    rw [pyUrlunsplit_eq]
    rw [if_neg (by simp : ¬(([] : Str) ≠ []))]
    rw [List.append_nil]
  have hsplit : splitScheme (pyUrlunsplit sch nl pp q []) =
      (sch, unsplitBody sch nl pp ++ (if q ≠ [] then '?' :: q else [])) := by
    rw [hb]
    rcases hsch with hnil | ⟨c, cs, hcs, halpha, hall⟩
    · subst hnil
      rw [if_neg (by simp : ¬(([] : Str) ≠ []))]
      by_cases hcond : unsplitUsesNetloc [] nl pp
      · rw [unsplitBody, if_pos hcond]
        exact splitScheme_none_of_head_not_alpha (by decide)
      · rw [unsplitBody, if_neg hcond]
        have hnl0 : nl = [] := by
          by_contra hne
          exact hcond (Or.inl hne)
        exact splitScheme_none_of_noSchemeColon (hns rfl hnl0) hqshape
    · subst hcs
      rw [if_pos (by simp : (c :: cs : Str) ≠ []), List.append_assoc]
      have h1 : splitScheme ((c :: cs) ++ ':' ::
          (unsplitBody (c :: cs) nl pp ++ (if q ≠ [] then '?' :: q else []))) =
          (lowerStr (c :: cs),
           unsplitBody (c :: cs) nl pp ++ (if q ≠ [] then '?' :: q else [])) :=
        splitScheme_of_good halpha hall
      rw [hlow] at h1
      exact h1
  have hnet : netlocSplit (unsplitBody sch nl pp ++ (if q ≠ [] then '?' :: q else [])) =
      (nl, unsplitPath sch nl pp ++ (if q ≠ [] then '?' :: q else [])) := by
    by_cases hcond : unsplitUsesNetloc sch nl pp
    · rw [unsplitBody, if_pos hcond, unsplitPath, if_pos hcond]
      have h2 : (('/' :: '/' :: (nl ++ slashPrep pp)) ++ (if q ≠ [] then '?' :: q else [])) =
          '/' :: '/' :: (nl ++ (slashPrep pp ++ (if q ≠ [] then '?' :: q else []))) := by
        rw [List.cons_append, List.cons_append, List.append_assoc]
      have hcondeq : List.take 2
          ('/' :: '/' :: (nl ++ (slashPrep pp ++ (if q ≠ [] then '?' :: q else [])))) =
          ['/', '/'] := rfl
      rw [h2, netlocSplit, if_pos hcondeq]
      obtain ⟨t0, ht0⟩ := slashPrep_head hpp
      refine takeUntilDelims_append hnl
        (Or.inr ⟨'/', t0 ++ (if q ≠ [] then '?' :: q else []), ?_, by decide⟩)
      rw [ht0]
      rfl
    · rw [unsplitBody, if_neg hcond, unsplitPath, if_neg hcond]
      have hnl0 : nl = [] := by
        by_contra hne
        exact hcond (Or.inl hne)
      subst hnl0
      have hne2 : ¬((pp ++ (if q ≠ [] then '?' :: q else [])).take 2 = ['/', '/']) :=
        take_two_append_ne hpp (hsl2 rfl) hqshape
      rw [netlocSplit, if_neg hne2]
  have hupnh : '#' ∉ unsplitPath sch nl pp := by
    intro hmem
    rcases mem_unsplitPath hmem with h2 | h2
    · exact absurd h2 (by decide)
    · exact hph h2
  have hupnq : '?' ∉ unsplitPath sch nl pp := by
    intro hmem
    rcases mem_unsplitPath hmem with h2 | h2
    · exact absurd h2 (by decide)
    · exact hpq h2
  have hfr : fragSplit (unsplitPath sch nl pp ++ (if q ≠ [] then '?' :: q else [])) =
      (unsplitPath sch nl pp ++ (if q ≠ [] then '?' :: q else []), []) := by
    apply fragSplit_none
    intro hmem
    rcases List.mem_append.mp hmem with h2 | h2
    · exact hupnh h2
    · rcases hqext with ⟨h3, -⟩ | h3
      · rw [h3] at h2
        cases h2
      · rw [h3] at h2
        rcases List.mem_cons.mp h2 with h4 | h4
        · exact absurd h4 (by decide)
        · exact hqh h4
  have hqr : querySplit (unsplitPath sch nl pp ++ (if q ≠ [] then '?' :: q else [])) =
      (unsplitPath sch nl pp, q) := by
    rcases hqext with ⟨h3, h3'⟩ | h3
    · rw [h3, List.append_nil, h3']
      exact querySplit_none hupnq
    · rw [h3]
      exact querySplit_append hupnq
  have hif : (if sch = [] then ([] : Str) else sch) = sch := by
    by_cases h : sch = []
    · rw [if_pos h, h]
    · rw [if_neg h]
  rw [urlsplitCore_decomp]
  simp only [hsplit, hnet, hfr, hqr, hif]

theorem parseFromSplit_no_params {s : SplitResult}
    (h : ¬(s.scheme ∈ uses_params ∧ ';' ∈ s.path)) :
    parseFromSplit s = ⟨s.scheme, s.netloc, s.path, [], s.query, s.fragment⟩ := by
  unfold parseFromSplit
  rw [if_neg h]

theorem pyUrlunparse_no_params (sch nl pa q fr : Str) :
    pyUrlunparse ⟨sch, nl, pa, [], q, fr⟩ = pyUrlunsplit sch nl pa q fr := by
  unfold pyUrlunparse
  simp

theorem normalize_url_of_parse {u sch nl pa q fr : Str}
    (h : pyUrlparse u = some ⟨sch, nl, pa, [], q, fr⟩) :
    normalize_url u =
      pyUrlunsplit (lowerStr sch) (lowerStr nl) (orSlash (rstripSlash pa)) q [] := by
  rw [normalize_url_orSlash h]
  exact pyUrlunparse_no_params _ _ _ _ _

theorem unsplitPath_shape {sch nl pp : Str}
    (h : pp = ['/'] ∨ ∃ front y, pp = front ++ [y] ∧ y ≠ '/') :
    unsplitPath sch nl pp = ['/'] ∨
      ∃ front y, unsplitPath sch nl pp = front ++ [y] ∧ y ≠ '/' := by
  unfold unsplitPath
  split
  · unfold slashPrep
    split
    · rcases h with rfl | ⟨front, y, rfl, hy⟩
      · rename_i hcond2
        exact absurd rfl hcond2.2
      · right
        exact ⟨'/' :: front, y, by rw [List.cons_append], hy⟩
    · exact h
  · exact h

theorem pyUrlunsplit_unsplitPath {sch nl pp q : Str} (hpp : pp ≠ [])
    (hsl : nl ≠ [] → pp.take 1 = ['/']) :
    pyUrlunsplit sch nl (unsplitPath sch nl pp) q [] = pyUrlunsplit sch nl pp q [] := by
  unfold unsplitPath
  by_cases hcond : unsplitUsesNetloc sch nl pp
  · rw [if_pos hcond]
    by_cases hp1 : pp.take 1 = ['/']
    · rw [slashPrep_eq_self hp1]
    · have hnl0 : nl = [] := by
        by_contra hne
        exact hp1 (hsl hne)
      subst hnl0
      rw [slashPrep, if_pos ⟨hpp, hp1⟩]
      have hcond' : unsplitUsesNetloc sch [] ('/' :: pp) := by
        rcases hcond with hne | ⟨h1, h2, h3⟩
        · exact absurd rfl hne
        · refine Or.inr ⟨h1, h2, ?_⟩
          intro hc
          apply hp1
          have hc2 : '/' :: pp.take 1 = ['/', '/'] := hc
          exact (List.cons_eq_cons.mp hc2).2
      rw [pyUrlunsplit_eq, pyUrlunsplit_eq]
      have hsp : slashPrep ('/' :: pp) = '/' :: pp := slashPrep_eq_self rfl
      have hb1 : unsplitBody sch [] ('/' :: pp) = '/' :: '/' :: '/' :: pp := by
        rw [unsplitBody, if_pos hcond', hsp]
        rfl
      have hb2 : unsplitBody sch [] pp = '/' :: '/' :: '/' :: pp := by
        rw [unsplitBody, if_pos hcond, slashPrep, if_pos ⟨hpp, hp1⟩]
        rfl
      rw [hb1, hb2]
  · rw [if_neg hcond]

/-- C8 counterexample: normalize_url is not idempotent.  For the URL
https://h/x/;y/ the first normalization only strips the trailing slash
(the ';' lies before the last '/', so urlparse extracts no parameters),
while the second normalization re-splits the path /x/;y into path /x/
and params y and then strips the slash of /x/, giving https://h/x;y. -/
theorem c8_counterexample :
    normalize_url (normalize_url (toStr (r"https://h/x/;y/"))) ≠
      normalize_url (toStr (r"https://h/x/;y/")) := by decide

/-- C8 (corrected): normalize(normalize(u)) = normalize(u) does not hold
for every string u (see c8_counterexample), but it does hold whenever
urlsplit(u) gives no occasion for parameter re-splitting (the scheme is
outside uses_params, or the path contains no ';') and does not combine
an empty netloc with a path that starts with two slashes. -/
theorem c8_normalize_idempotent_unless (u : Str)
    (h : ∀ s : SplitResult, pyUrlsplit u = some s →
      ((s.scheme ∉ uses_params ∨ ';' ∉ s.path) ∧
        ¬(s.netloc = [] ∧ s.path.take 2 = ['/', '/']))) :
    normalize_url (normalize_url u) = normalize_url u := by
  cases hp : pyUrlparse u with
  | none => rw [normalize_url_none hp, normalize_url_none hp]
  | some p =>
    have hp' : pyUrlparseD [] u = some p := hp
    obtain ⟨s, hs, hps⟩ := pyUrlparseD_split hp'
    obtain ⟨hparams, hnetpath⟩ := h s hs
    obtain rfl := pyUrlsplitD_some hs
    have hlow0 : lowerStr (urlsplitCore [] u).scheme = (urlsplitCore [] u).scheme :=
      urlsplitCore_scheme_lower u
    have hnos : ¬((urlsplitCore [] u).scheme ∈ uses_params ∧
        ';' ∈ (urlsplitCore [] u).path) := by
      rintro ⟨h1, h2⟩
      rcases hparams with h3 | h3
      · exact h3 h1
      · exact h3 h2
    have hpl : pyUrlparse u = some ⟨(urlsplitCore [] u).scheme,
        (urlsplitCore [] u).netloc, (urlsplitCore [] u).path, [],
        (urlsplitCore [] u).query, (urlsplitCore [] u).fragment⟩ := by
      rw [hp, hps, parseFromSplit_no_params hnos]
    have hnu := normalize_url_of_parse hpl
    rw [hlow0] at hnu
    have hnl : ∀ c ∈ lowerStr (urlsplitCore [] u).netloc, isDelimChar c = false := by
      intro c hc
      obtain ⟨d, hd, rfl⟩ := List.mem_map.mp hc
      rw [isDelimChar_toLower]
      exact netloc_no_delim hs d hd
    have hph : '#' ∉ orSlash (rstripSlash (urlsplitCore [] u).path) :=
      mem_orSlash_rstrip (by decide) (urlsplitCore_path_no_hash [] u)
    have hpq : '?' ∉ orSlash (rstripSlash (urlsplitCore [] u).path) :=
      mem_orSlash_rstrip (by decide) (urlsplitCore_path_no_query [] u)
    have hsl : lowerStr (urlsplitCore [] u).netloc ≠ [] →
        (orSlash (rstripSlash (urlsplitCore [] u).path)).take 1 = ['/'] := by
      intro hne
      have hnet_ne : (urlsplitCore [] u).netloc ≠ [] := by
        intro h0
        apply hne
        rw [h0]
        rfl
      exact orSlash_rstrip_take_one (urlsplitCore_path_head [] u hnet_ne)
    have hsl2 : lowerStr (urlsplitCore [] u).netloc = [] →
        (orSlash (rstripSlash (urlsplitCore [] u).path)).take 2 ≠ ['/', '/'] := by
      intro hnil
      have hnet0 : (urlsplitCore [] u).netloc = [] := List.map_eq_nil_iff.mp hnil
      apply orSlash_rstrip_take_two
      intro hc
      exact hnetpath ⟨hnet0, hc⟩
    have hns : (urlsplitCore [] u).scheme = [] →
        lowerStr (urlsplitCore [] u).netloc = [] →
        NoSchemeColon (orSlash (rstripSlash (urlsplitCore [] u).path)) := by
      intro hsch0 hnil
      have hu0 : splitScheme u = ([], u) := urlsplitCore_scheme_nil hsch0
      by_cases hbranch : (splitScheme u).2.take 2 = ['/', '/']
      · rcases urlsplitCore_path_head_of_branch [] u hbranch with hpath0 | ⟨t, hpathS⟩
        · rw [hpath0]
          exact noSchemeColon_slash
        · rw [hpathS]
          obtain ⟨t2, ht2⟩ := head_slash_of_take_one
            (orSlash_rstrip_take_one (Or.inr ⟨t, rfl⟩))
          rw [ht2]
          exact noSchemeColon_of_head_slash
      · by_cases hrs : rstripSlash (urlsplitCore [] u).path = []
        · rw [orSlash, if_pos hrs]
          exact noSchemeColon_slash
        · rw [orSlash, if_neg hrs]
          apply noSchemeColon_of_front hu0
          obtain ⟨t1, ht1, -⟩ := rstripSlash_decomp (urlsplitCore [] u).path
          obtain ⟨t2, ht2⟩ := pq_front (netlocSplit (splitScheme u).2).2
          have hXu : (netlocSplit (splitScheme u).2).2 = u := by
            rw [netlocSplit, if_neg hbranch]
            show (splitScheme u).2 = u
            rw [hu0]
          have hpath_eq : (urlsplitCore [] u).path =
              (querySplit (fragSplit (netlocSplit (splitScheme u).2).2).1).1 := by
            rw [urlsplitCore_decomp]
          refine ⟨t1 ++ t2, ?_⟩
          calc u = (netlocSplit (splitScheme u).2).2 := hXu.symm
            _ = (querySplit (fragSplit (netlocSplit (splitScheme u).2).2).1).1 ++ t2 := ht2
            _ = (urlsplitCore [] u).path ++ t2 := by rw [hpath_eq]
            _ = (rstripSlash (urlsplitCore [] u).path ++ t1) ++ t2 := by rw [← ht1]
            _ = rstripSlash (urlsplitCore [] u).path ++ (t1 ++ t2) :=
              List.append_assoc _ _ _
    have hmaster := urlsplitCore_unsplit (urlsplitCore_scheme_shape u) hlow0 hnl
      (orSlash_ne_nil _) hph hpq (urlsplitCore_query_no_hash [] u) hsl hsl2 hns
    have hbr2 : bracketBad (lowerStr (urlsplitCore [] u).netloc) = false := by
      rw [bracketBad_lowerStr]
      exact pyUrlsplitD_bracket hs
    have hs2 : pyUrlsplitD [] (pyUrlunsplit (urlsplitCore [] u).scheme
        (lowerStr (urlsplitCore [] u).netloc)
        (orSlash (rstripSlash (urlsplitCore [] u).path)) (urlsplitCore [] u).query []) =
        some ⟨(urlsplitCore [] u).scheme, lowerStr (urlsplitCore [] u).netloc,
          unsplitPath (urlsplitCore [] u).scheme (lowerStr (urlsplitCore [] u).netloc)
            (orSlash (rstripSlash (urlsplitCore [] u).path)),
          (urlsplitCore [] u).query, []⟩ := by
      unfold pyUrlsplitD
      rw [hmaster]
      have hcond : bracketBad ((⟨(urlsplitCore [] u).scheme,
          lowerStr (urlsplitCore [] u).netloc,
          unsplitPath (urlsplitCore [] u).scheme (lowerStr (urlsplitCore [] u).netloc)
            (orSlash (rstripSlash (urlsplitCore [] u).path)),
          (urlsplitCore [] u).query, []⟩ : SplitResult)).netloc = false := hbr2
      rw [if_neg (by simp [hcond])]
    have hnos2 : ¬((urlsplitCore [] u).scheme ∈ uses_params ∧
        ';' ∈ unsplitPath (urlsplitCore [] u).scheme
          (lowerStr (urlsplitCore [] u).netloc)
          (orSlash (rstripSlash (urlsplitCore [] u).path))) := by
      rintro ⟨h1, h2⟩
      rcases mem_unsplitPath h2 with h4 | h4
      · exact absurd h4 (by decide)
      · rcases hparams with h3 | h3
        · exact h3 h1
        · exact mem_orSlash_rstrip (by decide) h3 h4
    have hp2 : pyUrlparse (pyUrlunsplit (urlsplitCore [] u).scheme
        (lowerStr (urlsplitCore [] u).netloc)
        (orSlash (rstripSlash (urlsplitCore [] u).path)) (urlsplitCore [] u).query []) =
        some ⟨(urlsplitCore [] u).scheme, lowerStr (urlsplitCore [] u).netloc,
          unsplitPath (urlsplitCore [] u).scheme (lowerStr (urlsplitCore [] u).netloc)
            (orSlash (rstripSlash (urlsplitCore [] u).path)),
          [], (urlsplitCore [] u).query, []⟩ := by
      show pyUrlparseD [] _ = _
      unfold pyUrlparseD
      rw [hs2, Option.map_some',
        @parseFromSplit_no_params ⟨(urlsplitCore [] u).scheme,
          lowerStr (urlsplitCore [] u).netloc,
          unsplitPath (urlsplitCore [] u).scheme (lowerStr (urlsplitCore [] u).netloc)
            (orSlash (rstripSlash (urlsplitCore [] u).path)),
          (urlsplitCore [] u).query, []⟩ hnos2]
    have hnu2 := normalize_url_of_parse hp2
    rw [hlow0, lowerStr_idem] at hnu2
    rw [orSlash_rstrip_stable
      (unsplitPath_shape (orSlash_rstrip_shape (urlsplitCore [] u).path))] at hnu2
    rw [hnu, hnu2]
    exact pyUrlunsplit_unsplitPath (orSlash_ne_nil _) hsl

/-- C8 witness: the hypothesis of c8_normalize_idempotent_unless is
satisfiable and the conclusion holds at https://example.com/path/. -/
theorem c8_witness :
    normalize_url (normalize_url (toStr (r"https://example.com/path/"))) =
      normalize_url (toStr (r"https://example.com/path/")) := by
  apply c8_normalize_idempotent_unless
  intro s hs
  have he : pyUrlsplit (toStr (r"https://example.com/path/")) =
      some ⟨toStr (r"https"), toStr (r"example.com"), toStr (r"/path/"), [], []⟩ := by
    decide
  rw [he] at hs
  have hse := Option.some.inj hs
  subst hse
  exact ⟨Or.inr (by decide), by decide⟩

/-- C10: for every parsable URL whose path component is empty,
normalize_url rebuilds the URL with path "/" (scheme and netloc
lower-cased, fragment dropped, params and query kept); consequently,
for every well-formed scheme and every delimiter-free, bracket-balanced
host, the URLs scheme://host and scheme://host/ normalize identically. -/
theorem c10_root_slash_normalization :
    (∀ (u : Str) (p : ParseResult), pyUrlparse u = some p → p.path = [] →
      normalize_url u =
        pyUrlunparse ⟨lowerStr p.scheme, lowerStr p.netloc, ['/'],
          p.params, p.query, []⟩) ∧
    (∀ sch host : Str, ∀ c : Char, ∀ cs : Str, sch = c :: cs →
      isAsciiAlphaChar c = true → sch.all isSchemeChar = true →
      (∀ ch ∈ host, isDelimChar ch = false) → bracketBad host = false →
      normalize_url (sch ++ ':' :: '/' :: '/' :: host) =
        normalize_url ((sch ++ ':' :: '/' :: '/' :: host) ++ ['/'])) := by
  constructor
  · intro u p hp hpath
    rw [normalize_url_orSlash hp, hpath]
    rfl
  · intro sch host c cs hcs halpha hall hhost hbr
    subst hcs
    have hifne : (if lowerStr (c :: cs) = [] then ([] : Str) else lowerStr (c :: cs)) =
        lowerStr (c :: cs) := by
      rw [if_neg (show ¬lowerStr (c :: cs) = [] by simp [lowerStr])]
    have hf0 : fragSplit ([] : Str) = ([], []) := rfl
    have hq0 : querySplit ([] : Str) = ([], []) := rfl
    have hf1 : fragSplit (['/'] : Str) = (['/'], []) := rfl
    have hq1 : querySplit (['/'] : Str) = (['/'], []) := rfl
    have htu : takeUntilDelims host = (host, []) := by
      have h0 := takeUntilDelims_append hhost (Or.inl rfl)
      rwa [List.append_nil] at h0
    have htu2 : takeUntilDelims (host ++ ['/']) = (host, ['/']) :=
      takeUntilDelims_append hhost (Or.inr ⟨'/', [], rfl, by decide⟩)
    have hsp1 : splitScheme ((c :: cs) ++ ':' :: '/' :: '/' :: host) =
        (lowerStr (c :: cs), '/' :: '/' :: host) := splitScheme_of_good halpha hall
    have hsp2 : splitScheme ((c :: cs) ++ ':' :: '/' :: '/' :: (host ++ ['/'])) =
        (lowerStr (c :: cs), '/' :: '/' :: (host ++ ['/'])) :=
      splitScheme_of_good halpha hall
    have hc2a : List.take 2 ('/' :: '/' :: host) = ['/', '/'] := rfl
    have hc2b : List.take 2 ('/' :: '/' :: (host ++ ['/'])) = ['/', '/'] := rfl
    have hns1 : netlocSplit ('/' :: '/' :: host) = takeUntilDelims host := by
      rw [netlocSplit, if_pos hc2a]
      rfl
    have hns2 : netlocSplit ('/' :: '/' :: (host ++ ['/'])) =
        takeUntilDelims (host ++ ['/']) := by
      rw [netlocSplit, if_pos hc2b]
      rfl
    have happ : ((c :: cs) ++ ':' :: '/' :: '/' :: host) ++ ['/'] =
        (c :: cs) ++ ':' :: '/' :: '/' :: (host ++ ['/']) := by
      rw [List.append_assoc]
      rfl
    have hcore1 : urlsplitCore [] ((c :: cs) ++ ':' :: '/' :: '/' :: host) =
        ⟨lowerStr (c :: cs), host, [], [], []⟩ := by
      rw [urlsplitCore_decomp]
      simp only [hsp1, hns1, htu, hf0, hq0, hifne]
    have hcore2 : urlsplitCore [] (((c :: cs) ++ ':' :: '/' :: '/' :: host) ++ ['/']) =
        ⟨lowerStr (c :: cs), host, ['/'], [], []⟩ := by
      rw [happ, urlsplitCore_decomp]
      simp only [hsp2, hns2, htu2, hf1, hq1, hifne]
    have hsplit1 : pyUrlparse ((c :: cs) ++ ':' :: '/' :: '/' :: host) =
        some ⟨lowerStr (c :: cs), host, [], [], [], []⟩ := by
      show pyUrlparseD [] _ = _
      unfold pyUrlparseD pyUrlsplitD
      rw [hcore1, if_neg (by simp [hbr]), Option.map_some',
        @parseFromSplit_no_params ⟨lowerStr (c :: cs), host, [], [], []⟩ (by simp)]
    have hsplit2 : pyUrlparse (((c :: cs) ++ ':' :: '/' :: '/' :: host) ++ ['/']) =
        some ⟨lowerStr (c :: cs), host, ['/'], [], [], []⟩ := by
      show pyUrlparseD [] _ = _
      unfold pyUrlparseD pyUrlsplitD
      rw [hcore2, if_neg (by simp [hbr]), Option.map_some',
        @parseFromSplit_no_params ⟨lowerStr (c :: cs), host, ['/'], [], []⟩ (by simp)]
    have hn1 := normalize_url_of_parse hsplit1
    have hn2 := normalize_url_of_parse hsplit2
    rw [hn1, hn2]
    rfl

/-- C10 witness: at https://example.com the parse has empty path, the
normalized form is https://example.com/, and adding the root slash
before normalizing makes no difference. -/
theorem c10_witness :
    normalize_url (toStr (r"https://example.com")) =
        pyUrlunparse ⟨toStr (r"https"), toStr (r"example.com"), ['/'], [], [], []⟩ ∧
      normalize_url (toStr (r"https://example.com")) =
        normalize_url (toStr (r"https://example.com/")) := by
  constructor
  · have hp : pyUrlparse (toStr (r"https://example.com")) =
        some ⟨toStr (r"https"), toStr (r"example.com"), [], [], [], []⟩ := by decide
    have h1 := c10_root_slash_normalization.1 (toStr (r"https://example.com")) _ hp rfl
    rw [h1]
    decide
  · have e1 : toStr (r"https://example.com") =
        toStr (r"https") ++ ':' :: '/' :: '/' :: toStr (r"example.com") := by decide
    have e2 : toStr (r"https://example.com/") =
        (toStr (r"https") ++ ':' :: '/' :: '/' :: toStr (r"example.com")) ++ ['/'] := by
      decide
    rw [e1, e2]
    exact c10_root_slash_normalization.2 (toStr (r"https")) (toStr (r"example.com"))
      'h' (toStr (r"ttps")) (by decide) (by decide) (by decide) (by decide) (by decide)

